import Mathlib

/-!
Verification development for the hybrid retrieval and ranking engine of the
Canvas-RAG repository (`src/indexing/vector_store.py`, `src/retrieval/hybrid_search.py`).

The Python code is shallowly embedded: Python floats are modelled by `ℚ`,
Python dicts carrying metadata by association lists over a small value type,
Python's stable `sort`/`sorted` by a stable insertion sort, CPython string
operations (`lower`, `split`, `in`, `strip`, `startswith`) by executable
functions over `String`/`List Char`, and the small regular-expression subset
used by the classifiers (`\b`, literals, groups of alternatives, `.*`) by an
executable matcher.  Exceptions are modelled with `Except`; the external
collaborators (ChromaDB nearest-neighbour store, the embedding model, and the
logarithm-valued BM25 idf table) are modelled at their interface: a document
list with a per-document distance value, a success/failure flag, and an
`idf : String → ℚ` parameter.
-/

/-- A metadata value as stored in a ChromaDB/sparse-index metadata dict
(after `sanitize_metadata` only booleans, numbers and strings remain; the
fields that the retrieval engine reads are strings and booleans). -/
inductive MVal where
  | s (v : String)
  | b (v : Bool)
deriving DecidableEq, Repr

/-- A Python metadata dict: an insertion-ordered association list. -/
abbrev Metadata := List (String × MVal)

/-- `m.get(key)` — `None` becomes `Option.none`. -/
def mdLookup (m : Metadata) (k : String) : Option MVal :=
  match m with
  | [] => none
  | (k', v) :: rest => if k' = k then some v else mdLookup rest k

/-- `m.get(key, default)`. -/
def mdGetD (m : Metadata) (k : String) (d : MVal) : MVal :=
  (mdLookup m k).getD d

/-- Python truthiness of a metadata value (`bool(v)`). -/
def mvalTruthy : MVal → Bool
  | .b v => v
  | .s v => v ≠ ""

/-- Python `needle in hay` prefix helper over character lists. -/
def charsPrefix : List Char → List Char → Bool
  | [], _ => true
  | _ :: _, [] => false
  | p :: ps, c :: cs => p = c && charsPrefix ps cs

/-- Python substring containment over character lists. -/
def charsContains (needle : List Char) : List Char → Bool
  | [] => charsPrefix needle []
  | c :: cs => charsPrefix needle (c :: cs) || charsContains needle cs

/-- Python `needle in hay` for strings. -/
def strIn (needle hay : String) : Bool :=
  charsContains needle.toList hay.toList

/-- Python `s.lower()` (per-character, as for ASCII text). -/
def pyLower (s : String) : String :=
  ⟨s.data.map Char.toLower⟩

/-- Python `s.strip()`. -/
def pyStrip (s : String) : String :=
  ⟨((s.data.dropWhile Char.isWhitespace).reverse.dropWhile Char.isWhitespace).reverse⟩

/-- Python `s.startswith(pre)`. -/
def pyStartsWith (s pre : String) : Bool :=
  charsPrefix pre.toList s.toList

/-- Splitting a character list on a separator predicate, discarding empty
pieces — the semantics of Python's `str.split()` (with `p` = whitespace). -/
def wordsByAux (p : Char → Bool) : List Char → List Char → List (List Char)
  | cur, [] => if cur = [] then [] else [cur.reverse]
  | cur, c :: cs =>
    if p c then
      (if cur = [] then wordsByAux p [] cs else cur.reverse :: wordsByAux p [] cs)
    else wordsByAux p (c :: cur) cs

/-- `s.split()`-style splitting of a string on a character predicate. -/
def wordsBy (p : Char → Bool) (s : String) : List String :=
  (wordsByAux p [] s.toList).map List.asString

/-- Tokenization applied when building the sparse index
(`vector_store.py`, `SparseIndex.add_documents`: `doc.lower().split()`). -/
def tokenizeAdd (doc : String) : List String :=
  wordsBy Char.isWhitespace (pyLower doc)

/-- Tokenization applied when scoring a query against the sparse index
(`vector_store.py`, `SparseIndex.query`: `query.lower().split()`). -/
def tokenizeQuery (q : String) : List String :=
  wordsBy Char.isWhitespace (pyLower q)

/-- Modelled from the spec: the tokenizer §4.1 claims to "lower-case input
and split on non-alphanumeric boundaries".  This definition follows the
spec's words, for comparison with the tokenizer transcribed from the code. -/
def specTokenize (s : String) : List String :=
  wordsBy (fun c => !c.isAlphanum) (pyLower s)

/-! ## A stable insertion sort (the semantics of Python's stable `sorted`) -/

/-- Insert `x` into `l` before the first element `y` with `lt y x = false`.
With `lt` the strict comparison of the sort direction this realizes a stable
sort: an element inserted from the left of the original list lands before
all elements with an equal key. -/
def insB (lt : α → α → Bool) (x : α) : List α → List α
  | [] => [x]
  | y :: ys => if lt y x then y :: insB lt x ys else x :: y :: ys

/-- Stable sort: `sortB lt l` orders `l` by the strict comparison `lt`,
keeping the original relative order of elements that compare equal.  This is
the behaviour of CPython's `list.sort`/`sorted` with the corresponding key. -/
def sortB (lt : α → α → Bool) : List α → List α
  | [] => []
  | x :: xs => insB lt x (sortB lt xs)

theorem mem_insB {lt : α → α → Bool} {x a : α} {l : List α} :
    a ∈ insB lt x l ↔ a = x ∨ a ∈ l := by
  induction l with
  | nil => simp [insB]
  | cons y ys ih =>
    by_cases h : lt y x = true
    · simp only [insB, h, if_true, List.mem_cons, ih]
      tauto
    · simp only [insB, h, if_false, Bool.false_eq_true, List.mem_cons]

theorem perm_insB {lt : α → α → Bool} (x : α) (l : List α) :
    List.Perm (insB lt x l) (x :: l) := by
  induction l with
  | nil => simp [insB]
  | cons y ys ih =>
    by_cases h : lt y x = true
    · simp only [insB, h, if_true]
      exact List.Perm.trans (ih.cons y) (List.Perm.swap x y ys)
    · simp [insB, h]

theorem perm_sortB {lt : α → α → Bool} (l : List α) :
    List.Perm (sortB lt l) l := by
  induction l with
  | nil => simp [sortB]
  | cons x xs ih =>
    exact List.Perm.trans (perm_insB x (sortB lt xs)) (ih.cons x)

theorem mem_sortB {lt : α → α → Bool} {a : α} {l : List α} :
    a ∈ sortB lt l ↔ a ∈ l :=
  (perm_sortB l).mem_iff

theorem length_sortB {lt : α → α → Bool} (l : List α) :
    (sortB lt l).length = l.length :=
  (perm_sortB l).length_eq

/-- Stability, expressed as an order on the output: if the input is pairwise
related by `R` (for instance, `R` = "comes earlier in the input"), then the
output is sorted by the strict comparison with ties resolved by `R`. -/
theorem pairwise_insB_lex {lt : α → α → Bool}
    (hnt : ∀ a b c, lt a b = false → lt b c = false → lt a c = false)
    (hasym : ∀ a b, lt a b = true → lt b a = false)
    {R : α → α → Prop} {x : α} {l : List α}
    (hl : l.Pairwise (fun a b => lt a b = true ∨ (lt a b = false ∧ lt b a = false ∧ R a b)))
    (hx : ∀ y ∈ l, R x y) :
    (insB lt x l).Pairwise
      (fun a b => lt a b = true ∨ (lt a b = false ∧ lt b a = false ∧ R a b)) := by
  induction l with
  | nil => simp [insB]
  | cons y ys ih =>
    rcases List.pairwise_cons.1 hl with ⟨hy, hys⟩
    by_cases h : lt y x = true
    · simp only [insB, h, if_true]
      refine List.pairwise_cons.2 ⟨?_, ih hys (fun z hz => hx z (List.mem_cons_of_mem y hz))⟩
      intro z hz
      rcases mem_insB.1 hz with rfl | hz'
      · exact Or.inl h
      · exact hy z hz'
    · simp only [insB, h, if_false, Bool.false_eq_true]
      have hyx : lt y x = false := Bool.eq_false_iff.2 h
      refine List.pairwise_cons.2 ⟨?_, hl⟩
      intro z hz
      have hzx : lt z x = false := by
        rcases List.mem_cons.1 hz with rfl | hz'
        · exact hyx
        · rcases hy z hz' with hlt | ⟨_, hzy, _⟩
          · exact hnt z y x (hasym y z hlt) hyx
          · exact hnt z y x hzy hyx
      by_cases hxz : lt x z = true
      · exact Or.inl hxz
      · exact Or.inr ⟨Bool.eq_false_iff.2 hxz, hzx, hx z hz⟩

theorem pairwise_sortB_lex {lt : α → α → Bool}
    (hnt : ∀ a b c, lt a b = false → lt b c = false → lt a c = false)
    (hasym : ∀ a b, lt a b = true → lt b a = false)
    {R : α → α → Prop} {l : List α} (hl : l.Pairwise R) :
    (sortB lt l).Pairwise
      (fun a b => lt a b = true ∨ (lt a b = false ∧ lt b a = false ∧ R a b)) := by
  induction l with
  | nil => simp [sortB]
  | cons x xs ih =>
    rcases List.pairwise_cons.1 hl with ⟨hx, hxs⟩
    exact pairwise_insB_lex hnt hasym (ih hxs)
      (fun y hy => hx y (mem_sortB.1 hy))

/-! ## The regular-expression subset used by the classifiers

The patterns in `is_image_query`, `is_section_heading_query` and
`QueryProcessor.analyze_query` use only word boundaries, literal runs,
groups of literal alternatives and `.*`.  `re.search` succeeds iff a match
exists at some position; `.` does not match a newline. -/

inductive RItem where
  | lit (s : String)
  | alt (ss : List String)
  | anystar
  | bnd
deriving Repr

/-- Python's `\w` set (ASCII range, which covers the queries at issue). -/
def isWordChar (c : Char) : Bool :=
  c.isAlphanum || c = '_'

/-- Word boundary between an optional previous character and the next. -/
def atBoundary (prev next : Option Char) : Bool :=
  (match prev with | none => false | some c => isWordChar c)
    != (match next with | none => false | some c => isWordChar c)

/-- Drop a literal prefix, or fail. -/
def dropLit : List Char → List Char → Option (List Char)
  | [], cs => some cs
  | _ :: _, [] => none
  | p :: ps, c :: cs => if p = c then dropLit ps cs else none

/-- The character preceding the current position after skipping `skipped`. -/
def lastOpt (skipped : List Char) (prev : Option Char) : Option Char :=
  match skipped.getLast? with
  | some c => some c
  | none => prev

/-- Match a pattern at the current position (`prev` = preceding character). -/
def matchItems : List RItem → Option Char → List Char → Bool
  | [], _, _ => true
  | .bnd :: rest, prev, cs => atBoundary prev cs.head? && matchItems rest prev cs
  | .lit s :: rest, prev, cs =>
    match dropLit s.toList cs with
    | none => false
    | some cs' => matchItems rest (lastOpt s.toList prev) cs'
  | .alt ss :: rest, prev, cs =>
    ss.any (fun s =>
      match dropLit s.toList cs with
      | none => false
      | some cs' => matchItems rest (lastOpt s.toList prev) cs')
  | .anystar :: rest, prev, cs =>
    (List.range (cs.length + 1)).any (fun k =>
      (cs.take k).all (fun c => c ≠ '\n') &&
        matchItems rest (lastOpt (cs.take k) prev) (cs.drop k))

/-- `re.search`: try to match at every position. -/
def searchAux (p : List RItem) : Option Char → List Char → Bool
  | prev, [] => matchItems p prev []
  | prev, c :: rest => matchItems p prev (c :: rest) || searchAux p (some c) rest

/-- Whether `re.search(pattern, s)` finds a match. -/
def reSearch (p : List RItem) (s : String) : Bool :=
  searchAux p none s.toList

/-! ## Query classifiers (`HybridRetriever.is_image_query`,
`HybridRetriever.is_section_heading_query`) -/

/-- `explicit_visual_keywords` of `is_image_query`. -/
def explicitVisualKeywords : List String :=
  ["show me the image", "show me the drawing", "show me the plan",
   "describe the image", "describe the drawing", "describe the plan",
   "analyze the image", "analyze the drawing", "analyze the plan",
   "examine the image", "examine the drawing", "examine the plan",
   "what does the image", "what does the drawing", "what does the plan",
   "identify in the image", "identify in the drawing", "identify in the plan",
   "look at the image", "look at the drawing", "look at the plan",
   "what can you see", "what is visible", "what appears in"]

/-- `image_nouns` of `is_image_query`. -/
def imageNouns : List String :=
  ["image", "images", "drawing", "drawings", "diagram", "diagrams",
   "plan", "plans", "visual", "visuals", "render", "renders"]

/-- `request_verbs` of `is_image_query`. -/
def requestVerbs : List String :=
  ["list", "show", "display", "provide", "share", "give", "find",
   "see", "available", "include", "pull", "fetch"]

/-- The group of image words shared by the `visual_patterns` regexes. -/
def imageAltGroup : List String :=
  ["image", "drawing", "plan", "diagram"]

/-- `visual_patterns` of `is_image_query`. -/
def visualPatterns : List (List RItem) :=
  [[.bnd, .alt ["show", "display"], .anystar, .alt imageAltGroup],
   [.bnd, .alt ["describe", "analyze", "examine", "identify"], .anystar,
    .alt ["this", "the"], .anystar, .alt imageAltGroup],
   [.bnd, .lit "can you ", .alt ["see", "find", "identify", "describe"],
    .anystar, .alt imageAltGroup],
   [.bnd, .lit "what", .anystar, .alt ["visible", "appears", "shown"],
    .anystar, .alt imageAltGroup]]

/-- `general_question_patterns` of `is_image_query` (the negative guard). -/
def generalQuestionPatterns : List (List RItem) :=
  [[.bnd, .lit "what", .anystar, .lit "topics", .anystar, .lit "covered"],
   [.bnd, .lit "what", .anystar, .lit "purpose", .anystar, .lit "page"],
   [.bnd, .lit "what", .anystar, .lit "about", .anystar, .lit "page"],
   [.bnd, .lit "overview", .anystar, .lit "of"],
   [.bnd, .lit "summary", .anystar, .lit "of"],
   [.bnd, .lit "topics", .anystar, .lit "discussed"],
   [.bnd, .lit "what", .anystar, .lit "includes"],
   [.bnd, .lit "what", .anystar, .lit "contains"]]

/-- The first three (positive) rule families of `is_image_query`, in their
evaluation order: explicit phrase, noun plus verb or interrogative stem,
compound regex. -/
def explicitPhraseHit (ql : String) : Bool :=
  explicitVisualKeywords.any (fun p => strIn p ql)

def nounVerbHit (ql : String) : Bool :=
  imageNouns.any (fun nn => strIn nn ql) &&
    (requestVerbs.any (fun v => strIn v ql) ||
      (pyStartsWith (pyStrip ql) "what" || pyStartsWith (pyStrip ql) "which"))

def visualPatternHit (ql : String) : Bool :=
  visualPatterns.any (fun p => reSearch p ql)

def guardPatternHit (ql : String) : Bool :=
  generalQuestionPatterns.any (fun p => reSearch p ql)

/-- `HybridRetriever.is_image_query`, transcribed rule by rule in the
source's order of evaluation (each `return` becomes an `else if`). -/
def isImageQueryM (query : String) : Bool :=
  let ql := pyLower query
  if explicitPhraseHit ql then true
  else if nounVerbHit ql then true
  else if visualPatternHit ql then true
  else if guardPatternHit ql then false
  else false

/-- `section_heading_patterns` of `is_section_heading_query`. -/
def sectionHeadingPatterns : List (List RItem) :=
  [[.bnd, .lit "what", .anystar, .lit "sections", .anystar, .lit "on", .anystar, .lit "page"],
   [.bnd, .lit "what", .anystar, .lit "sections", .anystar, .lit "covered"],
   [.bnd, .lit "what", .anystar, .lit "topics", .anystar, .lit "covered"],
   [.bnd, .lit "what", .anystar, .lit "headings", .anystar, .lit "on", .anystar, .lit "page"],
   [.bnd, .lit "what", .anystar, .lit "headings", .anystar, .lit "in", .anystar, .lit "document"],
   [.bnd, .lit "list", .anystar, .lit "sections"],
   [.bnd, .lit "list", .anystar, .lit "headings"],
   [.bnd, .lit "titles", .anystar, .lit "sections"],
   [.bnd, .lit "section", .anystar, .lit "titles"],
   [.bnd, .lit "page", .anystar, .lit "structure"],
   [.bnd, .lit "document", .anystar, .lit "structure"],
   [.bnd, .lit "main", .anystar, .lit "topics", .anystar, .lit "discussed"],
   [.bnd, .lit "main", .anystar, .lit "sections", .anystar, .lit "in"],
   [.bnd, .lit "overview", .anystar, .lit "topics"],
   [.bnd, .lit "table", .anystar, .lit "contents"],
   [.bnd, .lit "what", .anystar, .lit "organized", .anystar, .lit "into"],
   [.bnd, .lit "how", .anystar, .lit "organized"],
   [.bnd, .lit "what", .anystar, .lit "parts", .anystar, .lit "include"],
   [.bnd, .lit "what", .anystar, .lit "divided", .anystar, .lit "into"]]

/-- `title_patterns` of `is_section_heading_query`. -/
def titlePatterns : List (List RItem) :=
  [[.bnd, .lit "title", .anystar, .lit "page"],
   [.bnd, .lit "page", .anystar, .lit "title"],
   [.bnd, .lit "name", .anystar, .lit "page"],
   [.bnd, .lit "what", .anystar, .lit "called"],
   [.bnd, .lit "what", .anystar, .lit "page", .anystar, .lit "about"]]

/-- `HybridRetriever.is_section_heading_query`. -/
def isSectionHeadingQueryM (query : String) : Bool :=
  let ql := pyLower query
  if sectionHeadingPatterns.any (fun p => reSearch p ql) then true
  else if titlePatterns.any (fun p => reSearch p ql) then true
  else false

/-! ## BM25 sparse index (`SparseIndex` over `rank_bm25.BM25Okapi`)

`BM25Okapi` sums, over the query tokens (with multiplicity), the term
`idf(t) * f*(k1+1) / (f + k1*(1-b+b*dl/avgdl))` with `k1 = 1.5`, `b = 0.75`;
a token absent from every document contributes `idf = 0`
(`self.idf.get(q) or 0`).  The logarithmic idf table for in-corpus tokens is
external input here, an `idf : String → ℚ` parameter. -/

/-- Number of occurrences of a token in a tokenized document. -/
def tokCount (t : String) (d : List String) : ℕ :=
  d.countP (fun x => x = t)

/-- Average document length of a tokenized corpus. -/
def avgdlOf (tdocs : List (List String)) : ℚ :=
  ((tdocs.map List.length).sum : ℚ) / (tdocs.length : ℚ)

/-- BM25Okapi score of one document for one query (idf of tokens outside
the corpus vocabulary is zero, as in `self.idf.get(q) or 0`). -/
def bm25DocScore (idf : String → ℚ) (tdocs : List (List String))
    (tq : List String) (d : List String) : ℚ :=
  let avgdl := avgdlOf tdocs
  tq.foldl (fun acc t =>
    let f : ℚ := (tokCount t d : ℚ)
    let w : ℚ := if tdocs.any (fun doc => doc.contains t) then idf t else 0
    acc + w * (f * (3/2 + 1)) / (f + 3/2 * (1 - 3/4 + 3/4 * (d.length : ℚ) / avgdl))) 0

/-- `BM25Okapi.get_scores`: one score per indexed document. -/
def bm25GetScores (idf : String → ℚ) (tdocs : List (List String))
    (tq : List String) : List ℚ :=
  tdocs.map (bm25DocScore idf tdocs tq)

/-- `SparseIndex` state: parallel lists of documents and metadata
(`add_documents` extends both together and rebuilds BM25 from all
documents; `is_initialized` holds iff at least one document was added). -/
structure SparseIndexM where
  documents : List String
  metadata : List Metadata

/-- `SparseIndex.query`: tokenize, score every document, sort by
descending score (stable) and truncate to `n` results.  An uninitialized
index returns `[]`. -/
def sparseQuery (idx : SparseIndexM) (idf : String → ℚ) (q : String)
    (n : ℕ) : List (ℕ × ℚ) :=
  if idx.documents.isEmpty then []
  else
    let tq := tokenizeQuery q
    let tdocs := idx.documents.map tokenizeAdd
    let scores := bm25GetScores idf tdocs tq
    let results := scores.enum
    (sortB (fun a b => decide (b.2 < a.2)) results).take n

/-! ## Fusion engine (`HybridRetriever.reciprocal_rank_fusion`)

The Python `fused_scores` dict is an insertion-ordered association list;
assigning to an existing key updates the entry in place, assigning to a new
key appends. -/

/-- The per-candidate record held in `fused_scores`. -/
structure FuseInfo where
  score : ℚ
  denseRank : Option ℕ
  sparseRank : Option ℕ
  source : String
deriving DecidableEq, Repr

abbrev FuseDict := List (ℕ × FuseInfo)

def dictContains (d : FuseDict) (k : ℕ) : Bool :=
  d.any (fun p => p.1 = k)

/-- `fused_scores[idx] = info` (update in place or append). -/
def dictSet (d : FuseDict) (k : ℕ) (v : FuseInfo) : FuseDict :=
  if dictContains d k then d.map (fun p => if p.1 = k then (p.1, v) else p)
  else d ++ [(k, v)]

/-- The entry written by the dense loop for dense rank `r`. -/
def mkDense (alpha k : ℚ) (r : ℕ) : FuseInfo :=
  ⟨alpha * (1 / (k + (r : ℚ))), some r, none, "dense"⟩

/-- The entry written by the sparse loop for a candidate seen only there. -/
def mkSparse (alpha k : ℚ) (r : ℕ) : FuseInfo :=
  ⟨(1 - alpha) * (1 / (k + (r : ℚ))), none, some r, "sparse"⟩

/-- The in-place update of the sparse loop for a candidate already present. -/
def updSparse (alpha k : ℚ) (i : FuseInfo) (r : ℕ) : FuseInfo :=
  ⟨i.score + (1 - alpha) * (1 / (k + (r : ℚ))), i.denseRank, some r, "hybrid"⟩

/-- `for rank, (idx, score) in enumerate(dense_results, start=1): ...`. -/
def densePhase (alpha k : ℚ) : ℕ → List (ℕ × ℚ) → FuseDict → FuseDict
  | _, [], d => d
  | r, (idx, _) :: rest, d =>
    densePhase alpha k (r + 1) rest (dictSet d idx (mkDense alpha k r))

/-- `for rank, (idx, score) in enumerate(sparse_results, start=1): ...`. -/
def sparsePhase (alpha k : ℚ) : ℕ → List (ℕ × ℚ) → FuseDict → FuseDict
  | _, [], d => d
  | r, (idx, _) :: rest, d =>
    let d' :=
      if dictContains d idx then
        d.map (fun p => if p.1 = idx then (p.1, updSparse alpha k p.2 r) else p)
      else d ++ [(idx, mkSparse alpha k r)]
    sparsePhase alpha k (r + 1) rest d'

/-- The fully built `fused_scores` dict. -/
def fusedDict (alpha k : ℚ) (dense sparse : List (ℕ × ℚ)) : FuseDict :=
  sparsePhase alpha k 1 sparse (densePhase alpha k 1 dense [])

/-- `HybridRetriever.reciprocal_rank_fusion`: build the dict, sort its
items by descending fused score (Python's `sorted` is stable), and project
to `(index, fused_score, source)` triples. -/
def reciprocalRankFusion (alpha : ℚ) (dense sparse : List (ℕ × ℚ))
    (k : ℚ) : List (ℕ × ℚ × String) :=
  let d := fusedDict alpha k dense sparse
  (sortB (fun a b => decide (b.2.score < a.2.score)) d).map
    (fun p => (p.1, p.2.score, p.2.source))

/-! ## Characterizing the fused dict -/

/-- `enumerate(l, start=r)`. -/
def enumFrom (r : ℕ) : List α → List (ℕ × α)
  | [] => []
  | x :: xs => (r, x) :: enumFrom (r + 1) xs

/-- 1-based rank (starting at `r`) of candidate `j` in a scored list. -/
def rankFrom (r : ℕ) : List (ℕ × ℚ) → ℕ → Option ℕ
  | [], _ => none
  | (i, _) :: rest, j => if i = j then some r else rankFrom (r + 1) rest j

/-- Rank of a candidate in a ranked list (1-based), `none` if absent. -/
def rankOf1 (l : List (ℕ × ℚ)) (j : ℕ) : Option ℕ :=
  rankFrom 1 l j

theorem enumFrom_map_snd (r : ℕ) (l : List α) :
    (enumFrom r l).map Prod.snd = l := by
  induction l generalizing r with
  | nil => rfl
  | cons x xs ih => simp [enumFrom, ih]

theorem mem_enumFrom {r : ℕ} {l : List α} {q : ℕ × α} (h : q ∈ enumFrom r l) :
    q.2 ∈ l ∧ r ≤ q.1 := by
  induction l generalizing r with
  | nil => simp [enumFrom] at h
  | cons x xs ih =>
    rcases List.mem_cons.1 h with rfl | h'
    · exact ⟨List.mem_cons_self x xs, le_refl r⟩
    · rcases ih h' with ⟨h1, h2⟩
      exact ⟨List.mem_cons_of_mem x h1, le_of_lt (lt_of_lt_of_le (Nat.lt_succ_self r) h2)⟩

theorem pairwise_fst_enumFrom (r : ℕ) (l : List α) :
    (enumFrom r l).Pairwise (fun a b => a.1 < b.1) := by
  induction l generalizing r with
  | nil => simp [enumFrom]
  | cons x xs ih =>
    refine List.pairwise_cons.2 ⟨?_, ih (r + 1)⟩
    intro q hq
    exact lt_of_lt_of_le (Nat.lt_succ_self r) (mem_enumFrom hq).2

theorem rankFrom_cons (r i : ℕ) (s0 : ℚ) (rest : List (ℕ × ℚ)) (j : ℕ) :
    rankFrom r ((i, s0) :: rest) j = if i = j then some r else rankFrom (r + 1) rest j :=
  rfl

theorem rankFrom_eq_none_of_not_mem {l : List (ℕ × ℚ)} {j : ℕ}
    (h : j ∉ l.map Prod.fst) (r : ℕ) : rankFrom r l j = none := by
  induction l generalizing r with
  | nil => rfl
  | cons p rest ih =>
    obtain ⟨i, sc⟩ := p
    simp only [List.map_cons, List.mem_cons] at h
    push_neg at h
    rw [rankFrom_cons, if_neg (fun hij => h.1 hij.symm)]
    exact ih h.2 (r + 1)

theorem rankFrom_of_mem_enumFrom {l : List (ℕ × ℚ)}
    (hnd : (l.map Prod.fst).Nodup) {r r0 j : ℕ} {sc : ℚ}
    (h : (r0, (j, sc)) ∈ enumFrom r l) : rankFrom r l j = some r0 := by
  induction l generalizing r with
  | nil => simp [enumFrom] at h
  | cons p rest ih =>
    obtain ⟨i, s0⟩ := p
    simp only [List.map_cons, List.nodup_cons] at hnd
    simp only [enumFrom, List.mem_cons, Prod.mk.injEq] at h
    rcases h with ⟨h1, h2, h3⟩ | h'
    · subst h1
      subst h2
      rw [rankFrom_cons, if_pos rfl]
    · have hji : i ≠ j := by
        intro hij
        subst hij
        exact hnd.1 (List.mem_map.2 ⟨(i, sc), (mem_enumFrom h').1, rfl⟩)
      rw [rankFrom_cons, if_neg hji]
      exact ih hnd.2 h'

theorem exists_mem_enumFrom_of_rankFrom {l : List (ℕ × ℚ)} {r r0 j : ℕ}
    (h : rankFrom r l j = some r0) :
    ∃ sc, (r0, (j, sc)) ∈ enumFrom r l := by
  induction l generalizing r with
  | nil => simp [rankFrom] at h
  | cons p rest ih =>
    obtain ⟨i, s0⟩ := p
    by_cases hij : i = j
    · rw [rankFrom_cons, if_pos hij] at h
      subst hij
      obtain rfl : r = r0 := by injection h
      exact ⟨s0, List.mem_cons_self _ _⟩
    · rw [rankFrom_cons, if_neg hij] at h
      rcases ih h with ⟨sc, hm⟩
      exact ⟨sc, List.mem_cons_of_mem _ hm⟩

theorem rankFrom_isSome_iff_mem {l : List (ℕ × ℚ)} {j : ℕ} (r : ℕ) :
    (rankFrom r l j).isSome ↔ j ∈ l.map Prod.fst := by
  induction l generalizing r with
  | nil => simp [rankFrom]
  | cons p rest ih =>
    obtain ⟨i, s0⟩ := p
    by_cases hij : i = j
    · subst hij
      rw [rankFrom_cons, if_pos rfl]
      simp
    · rw [rankFrom_cons, if_neg hij]
      rw [ih (r + 1)]
      simp only [List.map_cons, List.mem_cons]
      constructor
      · exact Or.inr
      · rintro (rfl | hm)
        · exact absurd rfl hij
        · exact hm

theorem dictContains_append (d1 d2 : FuseDict) (k : ℕ) :
    dictContains (d1 ++ d2) k = (dictContains d1 k || dictContains d2 k) := by
  simp [dictContains, List.any_append]

theorem dictContains_eq_false_iff {d : FuseDict} {k : ℕ} :
    dictContains d k = false ↔ ∀ p ∈ d, p.1 ≠ k := by
  simp [dictContains, List.any_eq_false]

theorem dictContains_map_fst_preserved {d : FuseDict} {f : ℕ × FuseInfo → ℕ × FuseInfo}
    (hf : ∀ p, (f p).1 = p.1) (k : ℕ) :
    dictContains (d.map f) k = dictContains d k := by
  induction d with
  | nil => rfl
  | cons p rest ih =>
    simp only [List.map_cons, dictContains, List.any_cons] at *
    rw [hf p, ih]

/-- The dict after the dense loop, as a closed form. -/
def denseDict (alpha k : ℚ) (dense : List (ℕ × ℚ)) : FuseDict :=
  (enumFrom 1 dense).map (fun q => (q.2.1, mkDense alpha k q.1))

theorem densePhase_closed (alpha k : ℚ) :
    ∀ (l : List (ℕ × ℚ)) (r : ℕ) (d : FuseDict),
      (∀ p ∈ l, dictContains d p.1 = false) → (l.map Prod.fst).Nodup →
      densePhase alpha k r l d =
        d ++ (enumFrom r l).map (fun q => (q.2.1, mkDense alpha k q.1)) := by
  intro l
  induction l with
  | nil => intro r d _ _; simp [densePhase, enumFrom]
  | cons p rest ih =>
    intro r d hfresh hnd
    obtain ⟨idx, sc⟩ := p
    simp only [List.map_cons, List.nodup_cons] at hnd
    have hd : dictContains d idx = false := hfresh (idx, sc) (List.mem_cons_self _ _)
    have hstep : dictSet d idx (mkDense alpha k r) = d ++ [(idx, mkDense alpha k r)] := by
      simp [dictSet, hd]
    simp only [densePhase, hstep]
    rw [ih (r + 1) (d ++ [(idx, mkDense alpha k r)]) ?_ hnd.2]
    · simp [enumFrom]
    · intro q hq
      rw [dictContains_append]
      have h1 : dictContains d q.1 = false := hfresh q (List.mem_cons_of_mem _ hq)
      have h2 : dictContains [(idx, mkDense alpha k r)] q.1 = false := by
        apply dictContains_eq_false_iff.2
        intro p hp
        rcases List.mem_cons.1 hp with rfl | hfalse
        · intro hiq
          apply hnd.1
          have hiq' : idx = q.1 := hiq
          rw [hiq']
          exact List.mem_map.2 ⟨q, hq, rfl⟩
        · simp at hfalse
      rw [h1, h2]
      rfl

/-- The sparse loop's in-place updates applied to a dict, as a map. -/
def updByRanks (alpha k : ℚ) (r : ℕ) (l : List (ℕ × ℚ)) (d : FuseDict) : FuseDict :=
  d.map (fun p =>
    match rankFrom r l p.1 with
    | none => p
    | some s => (p.1, updSparse alpha k p.2 s))

/-- The entries appended by the sparse loop for candidates new to the dict. -/
def newEntries (alpha k : ℚ) (r : ℕ) (l : List (ℕ × ℚ)) (d : FuseDict) : FuseDict :=
  ((enumFrom r l).filter (fun q => !dictContains d q.2.1)).map
    (fun q => (q.2.1, mkSparse alpha k q.1))

theorem sparsePhase_closed (alpha k : ℚ) :
    ∀ (l : List (ℕ × ℚ)) (r : ℕ) (d : FuseDict), (l.map Prod.fst).Nodup →
      sparsePhase alpha k r l d =
        updByRanks alpha k r l d ++ newEntries alpha k r l d := by
  intro l
  induction l with
  | nil =>
    intro r d _
    simp [sparsePhase, updByRanks, newEntries, enumFrom, rankFrom]
  | cons p rest ih =>
    intro r d hnd
    obtain ⟨idx, sc⟩ := p
    simp only [List.map_cons, List.nodup_cons] at hnd
    have hidx : idx ∉ rest.map Prod.fst := hnd.1
    by_cases hc : dictContains d idx = true
    · -- candidate already present: update in place
      simp only [sparsePhase, hc, if_true]
      set d' := d.map (fun p => if p.1 = idx then (p.1, updSparse alpha k p.2 r) else p) with hd'
      rw [ih (r + 1) d' hnd.2]
      have hkeys : ∀ j, dictContains d' j = dictContains d j := by
        intro j
        apply dictContains_map_fst_preserved
        intro q
        by_cases hq : q.1 = idx <;> simp [hq]
      congr 1
      · -- updByRanks composes
        rw [updByRanks, hd', List.map_map, updByRanks]
        apply List.map_congr_left
        intro q _
        by_cases hq : q.1 = idx
        · simp only [Function.comp_apply, if_pos hq]
          rw [show rankFrom (r + 1) rest (q.1, updSparse alpha k q.2 r).1 = none from ?_]
          · rw [rankFrom_cons, hq, if_pos rfl]
          · exact rankFrom_eq_none_of_not_mem (hq ▸ hidx) (r + 1)
        · simp only [Function.comp_apply, if_neg hq]
          rw [rankFrom_cons, if_neg (fun h => hq h.symm)]
      · -- the new entries are unchanged
        rw [newEntries, newEntries]
        congr 1
        rw [show enumFrom r ((idx, sc) :: rest) = (r, (idx, sc)) :: enumFrom (r + 1) rest from rfl]
        rw [List.filter_cons]
        simp only [hc, Bool.not_true, if_false]
        apply List.filter_congr
        intro q _
        rw [hkeys q.2.1]
    · -- candidate new to the dict: append
      have hc' : dictContains d idx = false := Bool.eq_false_iff.2 hc
      simp only [sparsePhase, hc', Bool.false_eq_true, if_false]
      rw [ih (r + 1) (d ++ [(idx, mkSparse alpha k r)]) hnd.2]
      have hdmem : ∀ p ∈ d, p.1 ≠ idx := dictContains_eq_false_iff.1 hc'
      have hup : updByRanks alpha k (r + 1) rest (d ++ [(idx, mkSparse alpha k r)]) =
          updByRanks alpha k r ((idx, sc) :: rest) d ++ [(idx, mkSparse alpha k r)] := by
        rw [updByRanks, updByRanks, List.map_append]
        congr 1
        · apply List.map_congr_left
          intro q hq
          rw [rankFrom_cons, if_neg (fun h => hdmem q hq h.symm)]
        · simp only [List.map_cons, List.map_nil]
          rw [rankFrom_eq_none_of_not_mem hidx (r + 1)]
      have hnew : newEntries alpha k (r + 1) rest (d ++ [(idx, mkSparse alpha k r)]) =
          newEntries alpha k (r + 1) rest d := by
        rw [newEntries, newEntries]
        congr 1
        apply List.filter_congr
        intro q hq
        rw [dictContains_append]
        have : dictContains [(idx, mkSparse alpha k r)] q.2.1 = false := by
          apply dictContains_eq_false_iff.2
          intro p hp
          rcases List.mem_cons.1 hp with rfl | hfalse
        
          · intro hiq
            apply hidx
            have hiq' : idx = q.2.1 := hiq
            rw [hiq']
            exact List.mem_map.2 ⟨q.2, (mem_enumFrom hq).1, rfl⟩
          · simp at hfalse
        rw [this, Bool.or_false]
      rw [hup, hnew]
      have hhead : newEntries alpha k r ((idx, sc) :: rest) d =
          (idx, mkSparse alpha k r) :: newEntries alpha k (r + 1) rest d := by
        rw [newEntries, newEntries]
        rw [show enumFrom r ((idx, sc) :: rest) = (r, (idx, sc)) :: enumFrom (r + 1) rest from rfl]
        rw [List.filter_cons]
        simp [hc']
      rw [hhead, List.append_assoc]
      rfl

theorem dictContains_iff_mem {d : FuseDict} {j : ℕ} :
    dictContains d j = true ↔ j ∈ d.map Prod.fst := by
  simp only [dictContains, List.any_eq_true, List.mem_map]
  constructor
  · rintro ⟨p, hp, hpj⟩
    exact ⟨p, hp, by simpa using hpj⟩
  · rintro ⟨p, hp, hpj⟩
    exact ⟨p, hp, by simpa using hpj⟩

theorem map_fst_denseDict (alpha k : ℚ) (dense : List (ℕ × ℚ)) :
    (denseDict alpha k dense).map Prod.fst = dense.map Prod.fst := by
  rw [denseDict, List.map_map]
  have : (Prod.fst ∘ fun q : ℕ × ℕ × ℚ => (q.2.1, mkDense alpha k q.1)) =
      (Prod.fst ∘ Prod.snd) := rfl
  rw [this, show (Prod.fst ∘ Prod.snd : ℕ × ℕ × ℚ → ℕ) =
    (Prod.fst ∘ fun q : ℕ × ℕ × ℚ => q.2) from rfl]
  rw [← List.map_map, enumFrom_map_snd]

theorem dictContains_denseDict (alpha k : ℚ) (dense : List (ℕ × ℚ)) (j : ℕ) :
    dictContains (denseDict alpha k dense) j = true ↔ j ∈ dense.map Prod.fst := by
  rw [dictContains_iff_mem, map_fst_denseDict]

/-- The record that the claim predicts for candidate `j`. -/
def specInfo (alpha k : ℚ) (dense sparse : List (ℕ × ℚ)) (j : ℕ) : FuseInfo :=
  ⟨(match rankOf1 dense j with
    | some r => alpha * (1 / (k + (r : ℚ)))
    | none => 0) +
   (match rankOf1 sparse j with
    | some s => (1 - alpha) * (1 / (k + (s : ℚ)))
    | none => 0),
   rankOf1 dense j, rankOf1 sparse j,
   match rankOf1 dense j, rankOf1 sparse j with
   | some _, some _ => "hybrid"
   | some _, none => "dense"
   | none, some _ => "sparse"
   | none, none => ""⟩

theorem fusedDict_closed (alpha k : ℚ) {dense sparse : List (ℕ × ℚ)}
    (hs : (sparse.map Prod.fst).Nodup) (hd : (dense.map Prod.fst).Nodup) :
    fusedDict alpha k dense sparse =
      updByRanks alpha k 1 sparse (denseDict alpha k dense) ++
        newEntries alpha k 1 sparse (denseDict alpha k dense) := by
  rw [fusedDict, densePhase_closed alpha k dense 1 [] (by intro p _; rfl) hd]
  rw [show ([] : FuseDict) ++ (enumFrom 1 dense).map
    (fun q => (q.2.1, mkDense alpha k q.1)) = denseDict alpha k dense from by
      simp [denseDict]]
  exact sparsePhase_closed alpha k sparse 1 _ hs

theorem mem_fusedDict_iff (alpha k : ℚ) {dense sparse : List (ℕ × ℚ)}
    (hd : (dense.map Prod.fst).Nodup) (hs : (sparse.map Prod.fst).Nodup)
    (j : ℕ) (info : FuseInfo) :
    (j, info) ∈ fusedDict alpha k dense sparse ↔
      ((j ∈ dense.map Prod.fst ∨ j ∈ sparse.map Prod.fst) ∧
        info = specInfo alpha k dense sparse j) := by
  rw [fusedDict_closed alpha k hs hd, List.mem_append]
  constructor
  · rintro (h1 | h2)
    · -- from the updated dense segment
      rw [updByRanks] at h1
      rcases List.mem_map.1 h1 with ⟨p, hp, hpe⟩
      rcases List.mem_map.1 hp with ⟨q, hq, rfl⟩
      obtain ⟨r0, j0, sc0⟩ := q
      have hrd : rankOf1 dense j0 = some r0 :=
        rankFrom_of_mem_enumFrom hd hq
      have hj : j = j0 := by
        rcases hcase : rankFrom 1 sparse (j0, mkDense alpha k r0).1 with _ | s
        · rw [hcase] at hpe
          exact (congrArg Prod.fst hpe).symm
        · rw [hcase] at hpe
          exact (congrArg Prod.fst hpe).symm
      subst hj
      have hjmem : j ∈ dense.map Prod.fst := by
        apply (rankFrom_isSome_iff_mem 1).1
        rw [show rankFrom 1 dense j = rankOf1 dense j from rfl, hrd]
        rfl
      refine ⟨Or.inl hjmem, ?_⟩
      rcases hcase : rankFrom 1 sparse j with _ | s
      · have hcase' : rankOf1 sparse j = none := hcase
        rw [show ((j, mkDense alpha k r0) : ℕ × FuseInfo).1 = j from rfl] at hpe
        rw [hcase] at hpe
        have : info = mkDense alpha k r0 := (congrArg Prod.snd hpe).symm
        rw [this, specInfo, hrd, hcase', mkDense]
        simp
      · have hcase' : rankOf1 sparse j = some s := hcase
        rw [show ((j, mkDense alpha k r0) : ℕ × FuseInfo).1 = j from rfl] at hpe
        rw [hcase] at hpe
        have : info = updSparse alpha k (mkDense alpha k r0) s := (congrArg Prod.snd hpe).symm
        rw [this, specInfo, hrd, hcase', updSparse, mkDense]
    · -- from the appended sparse-only segment
      rw [newEntries] at h2
      rcases List.mem_map.1 h2 with ⟨q, hq, hqe⟩
      rcases List.mem_filter.1 hq with ⟨hqm, hqf⟩
      obtain ⟨r0, j0, sc0⟩ := q
      have hj : j = j0 := (congrArg Prod.fst hqe).symm
      subst hj
      have hinfo : info = mkSparse alpha k r0 := (congrArg Prod.snd hqe).symm
      have hrs : rankOf1 sparse j = some r0 :=
        rankFrom_of_mem_enumFrom hs hqm
      have hnotd : j ∉ dense.map Prod.fst := by
        intro hmem
        have := (dictContains_denseDict alpha k dense j).2 hmem
        simp [this] at hqf
      have hrd : rankOf1 dense j = none :=
        rankFrom_eq_none_of_not_mem hnotd 1
      have hjmem : j ∈ sparse.map Prod.fst := by
        apply (rankFrom_isSome_iff_mem 1).1
        rw [show rankFrom 1 sparse j = rankOf1 sparse j from rfl, hrs]
        rfl
      refine ⟨Or.inr hjmem, ?_⟩
      rw [hinfo, specInfo, hrd, hrs, mkSparse]
      simp
  · rintro ⟨hmem, rfl⟩
    by_cases hjd : j ∈ dense.map Prod.fst
    · -- j occurs in the dense list: its entry lives in the first segment
      left
      have hsome : (rankOf1 dense j).isSome := (rankFrom_isSome_iff_mem 1).2 hjd
      rcases hrd : rankOf1 dense j with _ | r0
      · rw [hrd] at hsome; simp at hsome
      · rcases exists_mem_enumFrom_of_rankFrom hrd with ⟨sc, hmem'⟩
        rw [updByRanks]
        apply List.mem_map.2
        refine ⟨(j, mkDense alpha k r0), ?_, ?_⟩
        · exact List.mem_map.2 ⟨(r0, (j, sc)), hmem', rfl⟩
        · rcases hrs : rankFrom 1 sparse j with _ | s
          · have hrs' : rankOf1 sparse j = none := hrs
            simp [specInfo, hrd, hrs', mkDense]
          · have hrs' : rankOf1 sparse j = some s := hrs
            simp [specInfo, hrd, hrs', updSparse, mkDense]
    · -- j occurs only in the sparse list: its entry is appended
      right
      have hjs : j ∈ sparse.map Prod.fst := by
        rcases hmem with h | h
        · exact absurd h hjd
        · exact h
      have hsome : (rankOf1 sparse j).isSome := (rankFrom_isSome_iff_mem 1).2 hjs
      rcases hrs : rankOf1 sparse j with _ | s0
      · rw [hrs] at hsome; simp at hsome
      · rcases exists_mem_enumFrom_of_rankFrom hrs with ⟨sc, hmem'⟩
        have hrd : rankOf1 dense j = none := rankFrom_eq_none_of_not_mem hjd 1
        rw [newEntries]
        apply List.mem_map.2
        refine ⟨(s0, (j, sc)), ?_, ?_⟩
        · apply List.mem_filter.2
          refine ⟨hmem', ?_⟩
          have : dictContains (denseDict alpha k dense) j = false := by
            rcases hcc : dictContains (denseDict alpha k dense) j with _ | _
            · rfl
            · exact absurd ((dictContains_denseDict alpha k dense j).1 hcc) hjd
          simp [this]
        · rw [specInfo, hrd, hrs, mkSparse]
          simp

/-- Strict order on optional ranks, an absent rank counting as larger
than every present rank. -/
def optLtN : Option ℕ → Option ℕ → Prop
  | some x, some y => x < y
  | some _, none => True
  | none, _ => False

/-- The tie-breaking order of the claim: dense rank first (absent last),
then sparse rank. -/
def infoKeyLt (a b : FuseInfo) : Prop :=
  optLtN a.denseRank b.denseRank ∨
    (a.denseRank = b.denseRank ∧ optLtN a.sparseRank b.sparseRank)

theorem denseRank_of_mem_updSeg {alpha k : ℚ} {sparse dense : List (ℕ × ℚ)}
    {p : ℕ × FuseInfo}
    (hp : p ∈ updByRanks alpha k 1 sparse (denseDict alpha k dense)) :
    ∃ r, p.2.denseRank = some r := by
  rw [updByRanks] at hp
  rcases List.mem_map.1 hp with ⟨p0, hp0, rfl⟩
  rcases List.mem_map.1 hp0 with ⟨q, _, rfl⟩
  rcases hcase : rankFrom 1 sparse (q.2.1, mkDense alpha k q.1).1 with _ | s
  · exact ⟨q.1, by simp [hcase, mkDense]⟩
  · exact ⟨q.1, by simp [hcase, updSparse, mkDense]⟩

theorem denseRank_of_mem_newSeg {alpha k : ℚ} {sparse : List (ℕ × ℚ)}
    {d : FuseDict} {p : ℕ × FuseInfo}
    (hp : p ∈ newEntries alpha k 1 sparse d) :
    p.2.denseRank = none := by
  rw [newEntries] at hp
  rcases List.mem_map.1 hp with ⟨q, _, rfl⟩
  simp [mkSparse]

theorem pairwise_key_fusedDict (alpha k : ℚ) {dense sparse : List (ℕ × ℚ)}
    (hd : (dense.map Prod.fst).Nodup) (hs : (sparse.map Prod.fst).Nodup) :
    (fusedDict alpha k dense sparse).Pairwise (fun p q => infoKeyLt p.2 q.2) := by
  rw [fusedDict_closed alpha k hs hd]
  rw [List.pairwise_append]
  refine ⟨?_, ?_, ?_⟩
  · -- dense segment: dense ranks strictly increase
    rw [updByRanks, denseDict, List.map_map]
    rw [List.pairwise_map]
    apply (pairwise_fst_enumFrom 1 dense).imp_of_mem
    intro a b _ _ hab
    left
    cases ha : rankFrom 1 sparse a.2.1 <;> cases hb : rankFrom 1 sparse b.2.1 <;>
      simp [ha, hb, mkDense, updSparse, optLtN] <;> exact hab
  · -- sparse-only segment: dense ranks all absent, sparse ranks increase
    rw [newEntries, List.pairwise_map]
    apply ((pairwise_fst_enumFrom 1 sparse).filter _).imp_of_mem
    intro a b _ _ hab
    right
    exact ⟨by simp [mkSparse], by simpa [mkSparse, optLtN] using hab⟩
  · -- every dense-segment entry precedes every sparse-only entry
    intro p hp q hq
    rcases denseRank_of_mem_updSeg hp with ⟨r, hr⟩
    left
    rw [hr, denseRank_of_mem_newSeg hq]
    trivial

/-- The fused score predicted by the claim for candidate `j` (`k = 60`):
an RRF term per list in which the candidate occurs, weighted `α` for the
dense side and `1 − α` for the sparse side. -/
def rrfScoreSpec (alpha k : ℚ) (dense sparse : List (ℕ × ℚ)) (j : ℕ) : ℚ :=
  (match rankOf1 dense j with
   | some r => alpha * (1 / (k + (r : ℚ)))
   | none => 0) +
  (match rankOf1 sparse j with
   | some s => (1 - alpha) * (1 / (k + (s : ℚ)))
   | none => 0)

/-- The provenance tag predicted by the claim for candidate `j`. -/
def rrfTagSpec (dense sparse : List (ℕ × ℚ)) (j : ℕ) : String :=
  match rankOf1 dense j, rankOf1 sparse j with
  | some _, some _ => "hybrid"
  | some _, none => "dense"
  | none, some _ => "sparse"
  | none, none => ""

theorem specInfo_score (alpha k : ℚ) (dense sparse : List (ℕ × ℚ)) (j : ℕ) :
    (specInfo alpha k dense sparse j).score = rrfScoreSpec alpha k dense sparse j :=
  rfl

theorem specInfo_source (alpha k : ℚ) (dense sparse : List (ℕ × ℚ)) (j : ℕ) :
    (specInfo alpha k dense sparse j).source = rrfTagSpec dense sparse j :=
  rfl

theorem specInfo_denseRank (alpha k : ℚ) (dense sparse : List (ℕ × ℚ)) (j : ℕ) :
    (specInfo alpha k dense sparse j).denseRank = rankOf1 dense j :=
  rfl

theorem specInfo_sparseRank (alpha k : ℚ) (dense sparse : List (ℕ × ℚ)) (j : ℕ) :
    (specInfo alpha k dense sparse j).sparseRank = rankOf1 sparse j :=
  rfl

/-- The output order predicted by the claim: fused score descending, ties
by dense rank, then sparse rank (a candidate's absence from a list ranking
after every presence; the remaining "insertion order" tie-breaker is never
reached, because distinct candidates never share both ranks). -/
def rrfOrder (dense sparse : List (ℕ × ℚ)) (a b : ℕ × ℚ × String) : Prop :=
  b.2.1 < a.2.1 ∨
    (a.2.1 = b.2.1 ∧
      (optLtN (rankOf1 dense a.1) (rankOf1 dense b.1) ∨
        (rankOf1 dense a.1 = rankOf1 dense b.1 ∧
          optLtN (rankOf1 sparse a.1) (rankOf1 sparse b.1))))

theorem rrf_mem_characterization (alpha : ℚ) (dense sparse : List (ℕ × ℚ))
    (hd : (dense.map Prod.fst).Nodup) (hs : (sparse.map Prod.fst).Nodup)
    (t : ℕ × ℚ × String) :
    t ∈ reciprocalRankFusion alpha dense sparse 60 ↔
      ((t.1 ∈ dense.map Prod.fst ∨ t.1 ∈ sparse.map Prod.fst) ∧
        t.2.1 = rrfScoreSpec alpha 60 dense sparse t.1 ∧
        t.2.2 = rrfTagSpec dense sparse t.1) := by
  rw [reciprocalRankFusion]
  constructor
  · intro ht
    rcases List.mem_map.1 ht with ⟨p, hp, rfl⟩
    have hp' : p ∈ fusedDict alpha 60 dense sparse := mem_sortB.1 hp
    obtain ⟨j, info⟩ := p
    rcases (mem_fusedDict_iff alpha 60 hd hs j info).1 hp' with ⟨hmem, rfl⟩
    exact ⟨hmem, rfl, rfl⟩
  · rintro ⟨hmem, hsc, htag⟩
    have hm : (t.1, specInfo alpha 60 dense sparse t.1) ∈ fusedDict alpha 60 dense sparse :=
      (mem_fusedDict_iff alpha 60 hd hs t.1 _).2 ⟨hmem, rfl⟩
    apply List.mem_map.2
    refine ⟨(t.1, specInfo alpha 60 dense sparse t.1), mem_sortB.2 hm, ?_⟩
    obtain ⟨j, sc, tag⟩ := t
    simp only at hsc htag
    rw [hsc, htag, specInfo_score, specInfo_source]

theorem rrf_pairwise_order (alpha : ℚ) (dense sparse : List (ℕ × ℚ))
    (hd : (dense.map Prod.fst).Nodup) (hs : (sparse.map Prod.fst).Nodup) :
    (reciprocalRankFusion alpha dense sparse 60).Pairwise (rrfOrder dense sparse) := by
  rw [reciprocalRankFusion]
  rw [List.pairwise_map]
  have hsorted := @pairwise_sortB_lex _
    (fun a b : ℕ × FuseInfo => decide (b.2.score < a.2.score))
    (by
      intro a b c hab hbc
      simp only [decide_eq_false_iff_not, not_lt] at hab hbc ⊢
      exact le_trans hab hbc)
    (by
      intro a b hab
      simp only [decide_eq_true_eq] at hab
      simp only [decide_eq_false_iff_not, not_lt]
      exact le_of_lt hab)
    (fun p q => infoKeyLt p.2 q.2) _
    (pairwise_key_fusedDict alpha 60 hd hs)
  apply hsorted.imp_of_mem
  intro a b ha hb hab
  have ha' := (mem_fusedDict_iff alpha 60 hd hs a.1 a.2).1
    (mem_sortB.1 (by simpa using ha))
  have hb' := (mem_fusedDict_iff alpha 60 hd hs b.1 b.2).1
    (mem_sortB.1 (by simpa using hb))
  rcases hab with hlt | ⟨hf1, hf2, hkey⟩
  · left
    simpa using hlt
  · right
    constructor
    · have h1 : ¬ b.2.score < a.2.score := by simpa using hf1
      have h2 : ¬ a.2.score < b.2.score := by simpa using hf2
      show a.2.score = b.2.score
      exact le_antisymm (not_lt.1 h1) (not_lt.1 h2)
    · rw [infoKeyLt, ha'.2, hb'.2, specInfo_denseRank, specInfo_denseRank,
        specInfo_sparseRank, specInfo_sparseRank] at hkey
      exact hkey

/-- **C1.**  For every pair of ranked candidate lists (each ranked list
carries distinct candidate ids) and every fusion weight α ∈ [0,1],
`reciprocal_rank_fusion` (with its default constant k = 60) assigns each
candidate the score α·1/(60+dense_rank) when the candidate is present in the
dense list plus (1−α)·1/(60+sparse_rank) when present in the sparse list
(each term omitted when absent), tags each output item `dense`, `sparse` or
`hybrid` accordingly, and returns the candidates sorted descending by fused
score, ties broken by dense rank then sparse rank (with the residual
insertion-order tie-breaker never reached, distinct candidates never
sharing both ranks). -/
theorem rrf_fusion_formula_and_order (alpha : ℚ) (dense sparse : List (ℕ × ℚ))
    (h0 : 0 ≤ alpha) (h1 : alpha ≤ 1)
    (hd : (dense.map Prod.fst).Nodup) (hs : (sparse.map Prod.fst).Nodup) :
    (∀ t : ℕ × ℚ × String,
        t ∈ reciprocalRankFusion alpha dense sparse 60 ↔
          ((t.1 ∈ dense.map Prod.fst ∨ t.1 ∈ sparse.map Prod.fst) ∧
            t.2.1 = rrfScoreSpec alpha 60 dense sparse t.1 ∧
            t.2.2 = rrfTagSpec dense sparse t.1)) ∧
    (reciprocalRankFusion alpha dense sparse 60).Pairwise (rrfOrder dense sparse) :=
  ⟨fun t => rrf_mem_characterization alpha dense sparse hd hs t,
   rrf_pairwise_order alpha dense sparse hd hs⟩

theorem rrf_fusion_formula_and_order_witness :
    ((0 : ℚ) ≤ 1/2 ∧ (1 : ℚ)/2 ≤ 1 ∧
      (([(0, 9/10), (1, 8/10)] : List (ℕ × ℚ)).map Prod.fst).Nodup ∧
      (([(1, 1), (2, 1/2)] : List (ℕ × ℚ)).map Prod.fst).Nodup) ∧
    ((∀ t : ℕ × ℚ × String,
        t ∈ reciprocalRankFusion (1/2) [(0, 9/10), (1, 8/10)] [(1, 1), (2, 1/2)] 60 ↔
          ((t.1 ∈ ([(0, 9/10), (1, 8/10)] : List (ℕ × ℚ)).map Prod.fst ∨
              t.1 ∈ ([(1, 1), (2, 1/2)] : List (ℕ × ℚ)).map Prod.fst) ∧
            t.2.1 = rrfScoreSpec (1/2) 60 [(0, 9/10), (1, 8/10)] [(1, 1), (2, 1/2)] t.1 ∧
            t.2.2 = rrfTagSpec [(0, 9/10), (1, 8/10)] [(1, 1), (2, 1/2)] t.1)) ∧
      (reciprocalRankFusion (1/2) [(0, 9/10), (1, 8/10)] [(1, 1), (2, 1/2)] 60).Pairwise
        (rrfOrder [(0, 9/10), (1, 8/10)] [(1, 1), (2, 1/2)])) :=
  ⟨⟨by norm_num, by norm_num, by decide, by decide⟩,
    rrf_fusion_formula_and_order (1/2) [(0, 9/10), (1, 8/10)] [(1, 1), (2, 1/2)]
      (by norm_num) (by norm_num) (by decide) (by decide)⟩

/-! ## The retrieval environment

`HybridRetriever.retrieve` interacts with the ChromaDB collection (a list of
documents in insertion order, queried by embedding distance), the embedding
manager (which can raise), and the sparse index.  `VectorStore.query` and
`SparseIndex.query` catch their own errors and return empty results; an
error escaping from the embedding call aborts `retrieve`'s `try` block. -/

/-- A document of the ChromaDB collection. -/
structure Doc where
  id : String
  text : String
  metadata : Metadata
deriving DecidableEq, Repr

/-- The state `retrieve` runs against, with the external collaborators at
their interfaces: `dist i` is the distance of document `i` to the embedded
query (a single query is embedded per request), and the three flags model
an internal error in the embedding call, the dense store, or the BM25
scoring. -/
structure REnv where
  docs : List Doc
  dist : ℕ → ℚ
  embedFail : Bool
  denseFail : Bool
  sparseFail : Bool
  sparseDocs : List String
  sparseMeta : List Metadata
  idf : String → ℚ
  alpha : ℚ

/-- A ChromaDB query result (one query, so one row of each field). -/
structure DenseRes where
  ids : List String
  documents : List String
  metadatas : List Metadata
  distances : List ℚ
deriving Repr

/-- `VectorStore.query`: nearest `n` documents by distance (optionally
restricted by a `where` filter); any internal error yields empty results. -/
def vsQuery (env : REnv) (n : ℕ) (filt : Option (Metadata → Bool)) : DenseRes :=
  if env.denseFail then ⟨[], [], [], []⟩
  else
    let cand := env.docs.enum.filter (fun p =>
      match filt with
      | none => true
      | some f => f p.2.metadata)
    let top := (sortB (fun a b => decide (env.dist a.1 < env.dist b.1)) cand).take n
    ⟨top.map (fun p => p.2.id), top.map (fun p => p.2.text),
     top.map (fun p => p.2.metadata), top.map (fun p => env.dist p.1)⟩

/-- The rows of a dense result (`ids[i], documents[i], metadatas[i],
distances[i]`). -/
def denseRows (r : DenseRes) : List (String × String × Metadata × ℚ) :=
  r.ids.zip (r.documents.zip (r.metadatas.zip r.distances))

/-- The ChromaDB `where` filter used by the image-first branch:
`content_type == image`, or `content_type == image_reference`, or
`has_vision_analysis == True`. -/
def imageWhere (m : Metadata) : Bool :=
  mdLookup m "content_type" == some (MVal.s "image") ||
  mdLookup m "content_type" == some (MVal.s "image_reference") ||
  mdLookup m "has_vision_analysis" == some (MVal.b true)

/-- `SparseIndex.query` with its internal `try`: any error yields `[]`. -/
def sparseQueryE (env : REnv) (q : String) (n : ℕ) : List (ℕ × ℚ) :=
  if env.sparseFail then []
  else sparseQuery ⟨env.sparseDocs, env.sparseMeta⟩ env.idf q n

/-- `embedding_manager.embed_query`: may raise. -/
def embedQueryE (env : REnv) : Except Unit Unit :=
  if env.embedFail then .error () else .ok ()

/-- One returned result row (`retrieval_source` is set only by the general
hybrid branch). -/
structure RResult where
  id : MVal
  text : String
  score : ℚ
  rank : ℕ
  metadata : Metadata
  source : Option String
deriving DecidableEq, Repr

/-- The section-heading test applied to stored metadata
(`content_type == 'section_heading'` or truthy `is_section_heading`). -/
def isHeadingMd (m : Metadata) : Bool :=
  mdLookup m "content_type" == some (MVal.s "section_heading") ||
  mvalTruthy (mdGetD m "is_section_heading" (MVal.b false))

/-- The `is_image` re-check applied to candidate rows of the image branch. -/
def isImageMd (m : Metadata) : Bool :=
  (mdGetD m "content_type" (MVal.s "") == MVal.s "image" ||
   mdGetD m "content_type" (MVal.s "") == MVal.s "image_reference") ||
  (mdGetD m "file_type" (MVal.s "") == MVal.s "png" ||
   mdGetD m "file_type" (MVal.s "") == MVal.s "jpg" ||
   mdGetD m "file_type" (MVal.s "") == MVal.s "jpeg" ||
   mdGetD m "file_type" (MVal.s "") == MVal.s "pdf") ||
  mvalTruthy (mdGetD m "has_vision_analysis" (MVal.b false))

/-! ## `HybridRetriever.retrieve` -/

/-- The section branch's first pass: collect every stored segment whose
metadata marks it as a section heading, in collection order, at score 1.0,
rank = position among the headings. -/
def buildSectionHeadings (docs : List Doc) : List RResult :=
  docs.foldl (fun acc d =>
    if isHeadingMd d.metadata then
      acc ++ [⟨MVal.s d.id, d.text, 1, acc.length + 1, d.metadata, none⟩]
    else acc) []

/-- The section branch's backfill: walk the additional dense rows, skip
section headings, append the rest at score `1 − distance`. -/
def sectionBackfill (sh : List RResult) (add : DenseRes) : List RResult :=
  if add.ids.isEmpty then sh
  else
    (denseRows add).foldl (fun acc row =>
      if isHeadingMd row.2.2.1 then acc
      else acc ++ [⟨MVal.s row.1, row.2.1, 1 - row.2.2.2, acc.length + 1, row.2.2.1, none⟩]) sh

/-- Stage 1 of the image branch: up to `n // 2` rows of the restricted
query that pass the `is_image` re-check. -/
def imageStage (n : ℕ) (imageRes : DenseRes) : List RResult :=
  if imageRes.ids.isEmpty then []
  else
    ((denseRows imageRes).take (min (n / 2) imageRes.ids.length)).foldl (fun acc row =>
      if isImageMd row.2.2.1 then
        acc ++ [⟨MVal.s row.1, row.2.1, 1 - row.2.2.2, acc.length + 1, row.2.2.1, none⟩]
      else acc) []

/-- Stage 2 of the image branch: fill the remaining slots from the
unrestricted dense rows, skipping ids already present. -/
def imageBackfill (n : ℕ) (fin1 : List RResult) (denseResults : DenseRes) : List RResult :=
  let remaining := n - fin1.length
  if remaining > 0 && !denseResults.ids.isEmpty then
    ((denseRows denseResults).take (min remaining denseResults.ids.length)).foldl
      (fun acc row =>
        if acc.any (fun r => r.id == MVal.s row.1) then acc
        else acc ++ [⟨MVal.s row.1, row.2.1, 1 - row.2.2.2, acc.length + 1, row.2.2.1, none⟩])
      fin1
  else fin1

/-- One iteration of the general hybrid branch's assembly loop: resolve
`q = (rank − 1, result_idx, score, source)` positionally — through the dense
result rows for `dense`/`hybrid` sources, through the sparse index's
document list for `sparse` sources (or `hybrid` sources that missed) — and
keep the row when text and metadata are truthy. -/
def assembleStep (dres : DenseRes) (sdocs : List String) (smeta : List Metadata)
    (acc : List RResult) (q : ℕ × ℕ × ℚ × String) : List RResult :=
  let ridx := q.2.1
  let score := q.2.2.1
  let source := q.2.2.2
  let denseHit : Option (String × String × Metadata) :=
    if source = "dense" || source = "hybrid" then
      if ridx < dres.documents.length then
        some (dres.ids.getD ridx "", dres.documents.getD ridx "",
          dres.metadatas.getD ridx [])
      else none
    else none
  let hit : Option (MVal × String × Metadata) :=
    match denseHit with
    | some (i, t, m) => some (MVal.s i, t, m)
    | none =>
      if source = "sparse" || source = "hybrid" then
        if ridx < sdocs.length then
          let m := smeta.getD ridx []
          some (mdGetD m "id" (MVal.s ("sparse_" ++ toString ridx)),
            sdocs.getD ridx "", m)
        else none
      else none
  match hit with
  | some (i, t, m) =>
    if t ≠ "" && m ≠ [] then
      acc ++ [⟨i, t, score, q.1 + 1, m, some source⟩]
    else acc
  | none => acc

/-- Result assembly of the general hybrid branch: the loop over the
enumerated fused triples. -/
def assembleGeneral (dres : DenseRes) (sdocs : List String) (smeta : List Metadata)
    (fused : List (ℕ × ℚ × String)) : List RResult :=
  fused.enum.foldl (assembleStep dres sdocs smeta) []

/-- The general branch's `dense_results`: `(index, 1 − distance)` per
returned dense row. -/
def gbDense (env : REnv) (n : ℕ) : List (ℕ × ℚ) :=
  if (vsQuery env (n * 2) none).ids.isEmpty then []
  else (vsQuery env (n * 2) none).distances.enum.map (fun p => (p.1, 1 - p.2))

/-- The general branch's `sparse_results` (empty when the index holds no
documents, i.e. `is_initialized` is false). -/
def gbSparse (env : REnv) (q : String) (n : ℕ) : List (ℕ × ℚ) :=
  if env.sparseDocs.isEmpty then [] else sparseQueryE env q (n * 2)

/-- The general branch's `fused_results`: RRF when both paths produced
candidates, otherwise the surviving path alone. -/
def gbFused (env : REnv) (q : String) (n : ℕ) : List (ℕ × ℚ × String) :=
  if ¬ (gbDense env n).isEmpty ∧ ¬ (gbSparse env q n).isEmpty then
    reciprocalRankFusion env.alpha (gbDense env n) (gbSparse env q n) 60
  else if ¬ (gbDense env n).isEmpty then
    (gbDense env n).map (fun p => (p.1, p.2, "dense"))
  else if ¬ (gbSparse env q n).isEmpty then
    (gbSparse env q n).map (fun p => (p.1, p.2, "sparse"))
  else []

/-- The general hybrid branch: dense similarity list, sparse BM25 list,
fusion (or the surviving list alone), then assembly of the first `n`. -/
def generalBranch (env : REnv) (q : String) (n : ℕ) : List RResult :=
  if (gbFused env q n).isEmpty then []
  else assembleGeneral (vsQuery env (n * 2) none) env.sparseDocs env.sparseMeta
    ((gbFused env q n).take n)

/-- `HybridRetriever.retrieve` inside its `try` block. -/
def retrieveE (env : REnv) (q : String) (n : ℕ) (originalQuery : Option String) :
    Except Unit (List RResult) :=
  let aq := originalQuery.getD q
  if isSectionHeadingQueryM aq then
    let sh := buildSectionHeadings env.docs
    if sh.length < n then
      match embedQueryE env with
      | .error e => .error e
      | .ok _ =>
        let add := vsQuery env (n - sh.length) none
        .ok ((sectionBackfill sh add).take n)
    else .ok (sh.take n)
  else if isImageQueryM aq then
    match embedQueryE env with
    | .error e => .error e
    | .ok _ =>
      let imageRes := vsQuery env (n * 2) (some imageWhere)
      match embedQueryE env with
      | .error e => .error e
      | .ok _ =>
        let dres := vsQuery env (n * 2) none
        .ok (imageBackfill n (imageStage n imageRes) dres)
  else
    match embedQueryE env with
    | .error e => .error e
    | .ok _ => .ok (generalBranch env q n)

/-- `HybridRetriever.retrieve`: the surrounding `try/except` turns any
escaped error into an empty result list. -/
def retrieveM (env : REnv) (q : String) (n : ℕ)
    (originalQuery : Option String := none) : List RResult :=
  match retrieveE env q n originalQuery with
  | .ok l => l
  | .error _ => []

/-! ## Concrete states used to settle the routing claims -/

/-- A corpus with one section heading and two non-heading segments; the
heading is the nearest segment by embedding distance. -/
def sectionShortEnv : REnv :=
  { docs := [⟨"h", "Heading", [("content_type", MVal.s "section_heading")]⟩,
             ⟨"t1", "text one", [("content_type", MVal.s "text_chunk")]⟩,
             ⟨"t2", "text two", [("content_type", MVal.s "text_chunk")]⟩],
    dist := fun i => if i = 0 then 0 else if i = 1 then 1/2 else 3/4,
    embedFail := false, denseFail := false, sparseFail := false,
    sparseDocs := [], sparseMeta := [], idf := fun _ => 1, alpha := 1/2 }

/-- Two image segments and one (nearer) text segment. -/
def imageFloorEnv : REnv :=
  { docs := [⟨"i0", "imgA", [("content_type", MVal.s "image")]⟩,
             ⟨"i1", "imgB", [("content_type", MVal.s "image")]⟩,
             ⟨"t2", "textC", [("content_type", MVal.s "text_chunk")]⟩],
    dist := fun i => if i = 0 then 1/10 else if i = 1 then 2/10 else 1/20,
    embedFail := false, denseFail := false, sparseFail := false,
    sparseDocs := [], sparseMeta := [], idf := fun _ => 1, alpha := 1/2 }

/-- A state whose sparse index holds, at position 2, the same segment
(id `a`) that the dense store returns at position 0. -/
def dupIdEnv : REnv :=
  { docs := [⟨"a", "alpha beta", [("content_type", MVal.s "text_chunk")]⟩,
             ⟨"b", "gamma", [("content_type", MVal.s "text_chunk")]⟩],
    dist := fun i => if i = 0 then 1/10 else 2/10,
    embedFail := false, denseFail := false, sparseFail := false,
    sparseDocs := ["x", "y", "alpha beta"],
    sparseMeta := [[("id", MVal.s "x1")], [("id", MVal.s "y1")], [("id", MVal.s "a")]],
    idf := fun _ => 1, alpha := 1/2 }

/-! ## Query analysis and enhancement (`QueryProcessor` in
`hybrid_search.py`) -/

/-- `self.drawing_keywords` (an insertion-ordered dict). -/
def drawingKeywords : List (String × List String) :=
  [("plan", ["floor plan", "site plan", "plan view", "layout"]),
   ("section", ["section", "sectional", "cross section", "section cut"]),
   ("elevation", ["elevation", "facade", "front view", "side view"]),
   ("detail", ["detail", "detailed", "close-up", "construction detail"]),
   ("perspective", ["perspective", "3d view", "isometric", "axonometric"]),
   ("scale", ["scale", "scaling", "dimension", "measurement"]),
   ("annotation", ["annotation", "label", "text", "callout"]),
   ("dimensioning", ["dimension", "dimensioning", "measurement line"]),
   ("hatching", ["hatching", "pattern", "fill", "cross-hatching"]),
   ("symbols", ["symbol", "notation", "legend", "key"])]

/-- `self.question_patterns`, in dict order. -/
def questionPatterns : List (String × List RItem) :=
  [("what", [.bnd, .alt ["what", "which"], .bnd, .anystar, .lit "?"]),
   ("how", [.bnd, .lit "how", .bnd, .anystar, .lit "?"]),
   ("where", [.bnd, .lit "where", .bnd, .anystar, .lit "?"]),
   ("when", [.bnd, .lit "when", .bnd, .anystar, .lit "?"]),
   ("why", [.bnd, .lit "why", .bnd, .anystar, .lit "?"]),
   ("scale", [.bnd, .alt ["scale", "dimension", "size", "measurement"], .bnd]),
   ("visual", [.bnd, .alt ["show", "display", "image", "drawing", "figure", "diagram"], .bnd])]

/-- The `scale` pattern of `question_patterns`. -/
def scaleQP : List RItem :=
  [.bnd, .alt ["scale", "dimension", "size", "measurement"], .bnd]

/-- The `visual` pattern of `question_patterns`. -/
def visualQP : List RItem :=
  [.bnd, .alt ["show", "display", "image", "drawing", "figure", "diagram"], .bnd]

/-- The fields of `QueryProcessor.analyze_query`'s result that the
enhancement step reads. -/
structure QAnalysis where
  drawingTypes : List String
  questionType : String
  isVisual : Bool
  intent : String
deriving Repr

/-- `QueryProcessor.analyze_query` (the fields used downstream): collect a
drawing type per matching keyword, take the first matching question
pattern, and derive the intent (`factual`, overridden to `visual_reasoning`
by the visual pattern, then to `measurement` by the scale pattern). -/
def analyzeQueryM (query : String) : QAnalysis :=
  let ql := pyLower query
  let dts := drawingKeywords.foldl (fun acc kv =>
    kv.2.foldl (fun acc2 kw => if strIn kw ql then acc2 ++ [kv.1] else acc2) acc) []
  let qt := ((questionPatterns.find? (fun kv => reSearch kv.2 ql)).map Prod.fst).getD "general"
  let isV := reSearch visualQP ql
  let intent := if reSearch scaleQP ql then "measurement"
    else if isV then "visual_reasoning" else "factual"
  ⟨dts, qt, isV, intent⟩

/-- Python string comparison: lexicographic by code point, a proper
prefix ordering before every extension. -/
def charsLt : List Char → List Char → Bool
  | [], [] => false
  | [], _ :: _ => true
  | _ :: _, [] => false
  | a :: as, b :: bs =>
    if a.toNat < b.toNat then true
    else if b.toNat < a.toNat then false
    else charsLt as bs

/-- Python `a < b` on strings. -/
def strLt (a b : String) : Bool :=
  charsLt a.data b.data

/-- Python-set insertion (`enhanced_terms.add`): append if absent. -/
def setAdd (s : List String) (t : String) : List String :=
  if t ∈ s then s else s ++ [t]

/-- `enhanced_terms.update(ts)`. -/
def setAddMany (s : List String) (ts : List String) : List String :=
  ts.foldl setAdd s

/-- `update(t for t in ts if t not in query_lower)` (also the shape of the
per-keyword `if keyword not in query_lower: add(keyword)` loops). -/
def setAddFiltered (s : List String) (ts : List String) (ql : String) : List String :=
  ts.foldl (fun b t => if strIn t ql then b else setAdd b t) s

/-- `settings.query_enhancement_max_terms` (default 10). -/
def queryEnhancementMaxTerms : ℕ := 10

/-- The term list added by the question-type `elif` chain of
`enhance_query` — the one family added *without* the `not in query_lower`
dedup check. -/
def questionBranchTerms (ql : String) (qt : String) : List String :=
  if qt = "what" &&
      (["is", "are", "purpose", "function"].any (fun w => strIn w ql)) then
    ["definition", "purpose", "function", "meaning"]
  else if qt = "how" &&
      (["read", "interpret", "understand"].any (fun w => strIn w ql)) then
    ["method", "technique", "procedure", "process", "steps"]
  else if qt = "where" &&
      (["find", "locate", "position"].any (fun w => strIn w ql)) then
    ["location", "position", "placement", "coordinates"]
  else if qt = "when" &&
      (["produce", "create", "use"].any (fun w => strIn w ql)) then
    ["timing", "phase", "stage", "process"]
  else if qt = "why" &&
      (["important", "necessary", "need"].any (fun w => strIn w ql)) then
    ["importance", "reason", "rationale", "benefit"]
  else []

/-- Step 1 of `enhance_query`: architectural synonyms for the detected
drawing types, deduplicated against the query. -/
def stageDrawing (ql : String) (dts : List String) : List String :=
  dts.foldl (fun acc dt =>
    match drawingKeywords.find? (fun kv => kv.1 = dt) with
    | some kv => setAddFiltered acc kv.2 ql
    | none => acc) []

/-- Step 2: section-query terms, deduplicated against the query. -/
def stageSection (ql : String) (s : List String) : List String :=
  if ["section", "heading", "topic", "structure"].any (fun w => strIn w ql) then
    setAddFiltered s ["headings", "topics", "sections", "structure", "organization", "outline"] ql
  else s

/-- Step 3: question-type terms — added with no dedup check. -/
def stageQuestion (ql qt : String) (s : List String) : List String :=
  setAddMany s (questionBranchTerms ql qt)

/-- Step 4: intent terms, deduplicated against the query. -/
def stageIntent (ql intent : String) (s : List String) : List String :=
  if intent = "visual_reasoning" then
    setAddFiltered s ["diagram", "illustration", "graphic", "visual", "display"] ql
  else if intent = "measurement" then
    setAddFiltered s ["dimension", "size", "measurement", "scale", "units"] ql
  else s

/-- Step 5: architectural-context terms, deduplicated against the query. -/
def stageArch (ql : String) (s : List String) : List String :=
  if ["construction", "building", "design", "architecture"].any (fun w => strIn w ql) then
    setAddFiltered s ["technical", "engineering", "architectural", "design"] ql
  else s

/-- The `enhanced_terms` set of `QueryProcessor.enhance_query`, built in
the source's order: drawing-type synonyms, section terms, question-type
terms, intent terms, architectural-context terms. -/
def enhanceTermsM (query : String) (a : QAnalysis) : List String :=
  let ql := pyLower query
  stageArch ql (stageIntent ql a.intent
    (stageQuestion ql a.questionType (stageSection ql (stageDrawing ql a.drawingTypes))))

/-- `sorted(enhanced_terms)[:max_terms]`: Python's string sort is the
lexicographic code-point order. -/
def sortedEnhanceTerms (query : String) (a : QAnalysis) : List String :=
  (sortB strLt (enhanceTermsM query a)).take queryEnhancementMaxTerms

/-- `QueryProcessor.enhance_query`. -/
def enhanceQueryM (query : String) : String :=
  let a := analyzeQueryM query
  if enhanceTermsM query a ≠ [] then
    query ++ " " ++ " ".intercalate (sortedEnhanceTerms query a)
  else query

theorem charsLt_cons (a b : Char) (as bs : List Char) :
    charsLt (a :: as) (b :: bs) =
      if a.toNat < b.toNat then true
      else if b.toNat < a.toNat then false
      else charsLt as bs :=
  rfl

theorem charsLt_asymm : ∀ a b, charsLt a b = true → charsLt b a = false := by
  intro a
  induction a with
  | nil =>
    intro b h
    cases b with
    | nil => simp [charsLt] at h
    | cons y ys => rfl
  | cons x xs ih =>
    intro b h
    cases b with
    | nil => simp [charsLt] at h
    | cons y ys =>
      rw [charsLt_cons] at h
      rw [charsLt_cons]
      by_cases h1 : x.toNat < y.toNat
      · rw [if_neg (by omega), if_pos h1]
      · by_cases h2 : y.toNat < x.toNat
        · rw [if_neg h1, if_pos h2] at h
          exact absurd h (by simp)
        · rw [if_neg h1, if_neg h2] at h
          rw [if_neg h2, if_neg h1]
          exact ih ys h

theorem charsLt_neg_trans :
    ∀ a b c, charsLt a b = false → charsLt b c = false → charsLt a c = false := by
  intro a
  induction a with
  | nil =>
    intro b c hab hbc
    cases b with
    | nil => exact hbc
    | cons y ys => simp [charsLt] at hab
  | cons x xs ih =>
    intro b c hab hbc
    cases c with
    | nil => rfl
    | cons z zs =>
      cases b with
      | nil => simp [charsLt] at hbc
      | cons y ys =>
        rw [charsLt_cons] at hab hbc
        rw [charsLt_cons]
        by_cases h1 : x.toNat < y.toNat
        · rw [if_pos h1] at hab
          exact absurd hab (by simp)
        · by_cases h3 : y.toNat < z.toNat
          · rw [if_pos h3] at hbc
            exact absurd hbc (by simp)
          · by_cases h2 : y.toNat < x.toNat
            · rw [if_neg (by omega), if_pos (by omega)]
            · by_cases h4 : z.toNat < y.toNat
              · rw [if_neg (by omega), if_pos (by omega)]
              · rw [if_neg h1, if_neg h2] at hab
                rw [if_neg h3, if_neg h4] at hbc
                rw [if_neg (by omega), if_neg (by omega)]
                exact ih ys zs hab hbc

theorem strLt_asymm (a b : String) : strLt a b = true → strLt b a = false :=
  charsLt_asymm a.data b.data

theorem strLt_neg_trans (a b c : String) :
    strLt a b = false → strLt b c = false → strLt a c = false :=
  charsLt_neg_trans a.data b.data c.data

theorem charsPrefix_self_append : ∀ (l r : List Char), charsPrefix l (l ++ r) = true := by
  intro l r
  induction l with
  | nil => rfl
  | cons c cs ih => simp [charsPrefix, ih]

theorem mem_setAdd {s : List String} {x t : String} :
    t ∈ setAdd s x → t ∈ s ∨ t = x := by
  intro h
  rw [setAdd] at h
  by_cases hx : x ∈ s
  · rw [if_pos hx] at h
    exact Or.inl h
  · rw [if_neg hx] at h
    rcases List.mem_append.1 h with h' | h'
    · exact Or.inl h'
    · exact Or.inr (List.mem_singleton.1 h')

theorem mem_setAddMany {ts : List String} :
    ∀ {s : List String} {t : String}, t ∈ setAddMany s ts → t ∈ s ∨ t ∈ ts := by
  induction ts with
  | nil =>
    intro s t h
    exact Or.inl h
  | cons x xs ih =>
    intro s t h
    rw [setAddMany, List.foldl_cons] at h
    rcases ih h with h' | h'
    · rcases mem_setAdd h' with h'' | h''
      · exact Or.inl h''
      · exact Or.inr (h'' ▸ List.mem_cons_self x xs)
    · exact Or.inr (List.mem_cons_of_mem x h')

theorem mem_setAddFiltered {ql : String} {ts : List String} :
    ∀ {s : List String} {t : String},
      t ∈ setAddFiltered s ts ql → t ∈ s ∨ strIn t ql = false := by
  induction ts with
  | nil =>
    intro s t h
    exact Or.inl h
  | cons x xs ih =>
    intro s t h
    rw [setAddFiltered, List.foldl_cons] at h
    rcases ih h with h' | h'
    · by_cases hx : strIn x ql = true
      · rw [if_pos hx] at h'
        exact Or.inl h'
      · rw [if_neg hx] at h'
        rcases mem_setAdd h' with h'' | h''
        · exact Or.inl h''
        · exact Or.inr (h'' ▸ Bool.eq_false_iff.2 hx)
    · exact Or.inr h'

theorem mem_drawing_foldl {ql : String} :
    ∀ (dts acc : List String) (t : String),
      t ∈ dts.foldl (fun acc dt =>
        match drawingKeywords.find? (fun kv => kv.1 = dt) with
        | some kv => setAddFiltered acc kv.2 ql
        | none => acc) acc →
      t ∈ acc ∨ strIn t ql = false := by
  intro dts
  induction dts with
  | nil =>
    intro acc t h
    exact Or.inl h
  | cons d ds ih =>
    intro acc t h
    rw [List.foldl_cons] at h
    rcases ih _ t h with h' | h'
    · rcases hfind : drawingKeywords.find? (fun kv => kv.1 = d) with _ | kv
      · rw [hfind] at h'
        exact Or.inl h'
      · rw [hfind] at h'
        exact mem_setAddFiltered h'
    · exact Or.inr h'

theorem mem_stageDrawing {ql : String} {dts : List String} {t : String}
    (h : t ∈ stageDrawing ql dts) : strIn t ql = false := by
  rw [stageDrawing] at h
  rcases mem_drawing_foldl dts [] t h with h' | h'
  · simp at h'
  · exact h'

theorem mem_stageSection {ql : String} {s : List String} {t : String}
    (h : t ∈ stageSection ql s) : t ∈ s ∨ strIn t ql = false := by
  rw [stageSection] at h
  by_cases hc : (["section", "heading", "topic", "structure"].any
      (fun w => strIn w ql)) = true
  · rw [if_pos hc] at h
    exact mem_setAddFiltered h
  · rw [if_neg hc] at h
    exact Or.inl h

theorem mem_stageQuestion {ql qt : String} {s : List String} {t : String}
    (h : t ∈ stageQuestion ql qt s) : t ∈ s ∨ t ∈ questionBranchTerms ql qt :=
  mem_setAddMany h

theorem mem_stageIntent {ql intent : String} {s : List String} {t : String}
    (h : t ∈ stageIntent ql intent s) : t ∈ s ∨ strIn t ql = false := by
  rw [stageIntent] at h
  by_cases hc : intent = "visual_reasoning"
  · rw [if_pos hc] at h
    exact mem_setAddFiltered h
  · rw [if_neg hc] at h
    by_cases hc2 : intent = "measurement"
    · rw [if_pos hc2] at h
      exact mem_setAddFiltered h
    · rw [if_neg hc2] at h
      exact Or.inl h

theorem mem_stageArch {ql : String} {s : List String} {t : String}
    (h : t ∈ stageArch ql s) : t ∈ s ∨ strIn t ql = false := by
  rw [stageArch] at h
  by_cases hc : (["construction", "building", "design", "architecture"].any
      (fun w => strIn w ql)) = true
  · rw [if_pos hc] at h
    exact mem_setAddFiltered h
  · rw [if_neg hc] at h
    exact Or.inl h

/-- Every collected enhancement term either is absent from the lowercased
query or was added by the question-type branch (the one with no dedup). -/
theorem mem_enhanceTermsM {q : String} {a : QAnalysis} {t : String}
    (h : t ∈ enhanceTermsM q a) :
    strIn t (pyLower q) = false ∨
      t ∈ questionBranchTerms (pyLower q) a.questionType := by
  rw [enhanceTermsM] at h
  rcases mem_stageArch h with h1 | h1
  · rcases mem_stageIntent h1 with h2 | h2
    · rcases mem_stageQuestion h2 with h3 | h3
      · rcases mem_stageSection h3 with h4 | h4
        · exact Or.inl (mem_stageDrawing h4)
        · exact Or.inl h4
      · exact Or.inr h3
    · exact Or.inl h2
  · exact Or.inl h1

theorem pairwise_trivial_true {l : List α} : l.Pairwise (fun _ _ => True) := by
  induction l with
  | nil => exact List.Pairwise.nil
  | cons x xs ih => exact List.pairwise_cons.2 ⟨fun _ _ => trivial, ih⟩

/-- **C7 (amended).**  The enhanced query always preserves the original
query text verbatim as a prefix; the appended terms are sorted in Python's
string order and capped at the configured maximum of 10; every appended
term produced by the drawing-type, section, intent and
architectural-context families is deduplicated against the query, but the
question-type family is appended without that check (so an appended
question-type term can already occur in the original query). -/
theorem enhance_query_prefix_sorted_capped (q : String) :
    pyStartsWith (enhanceQueryM q) q = true ∧
    (sortedEnhanceTerms q (analyzeQueryM q)).length ≤ queryEnhancementMaxTerms ∧
    (sortedEnhanceTerms q (analyzeQueryM q)).Pairwise (fun a b => strLt b a = false) ∧
    (∀ t ∈ sortedEnhanceTerms q (analyzeQueryM q),
      strIn t (pyLower q) = false ∨
        t ∈ questionBranchTerms (pyLower q) (analyzeQueryM q).questionType) := by
  refine ⟨?_, ?_, ?_, ?_⟩
  · rw [enhanceQueryM]
    by_cases hc : enhanceTermsM q (analyzeQueryM q) ≠ []
    · rw [if_pos hc]
      rw [pyStartsWith]
      have : (q ++ " " ++ " ".intercalate (sortedEnhanceTerms q (analyzeQueryM q))).toList =
          q.toList ++ (" " ++ " ".intercalate (sortedEnhanceTerms q (analyzeQueryM q))).toList := by
        simp [String.toList]
      rw [this]
      exact charsPrefix_self_append _ _
    · rw [if_neg hc]
      rw [pyStartsWith]
      have : q.toList = q.toList ++ [] := by simp
      conv_rhs => rw [show (true : Bool) = charsPrefix q.toList (q.toList ++ []) from
        (charsPrefix_self_append q.toList []).symm]
      simp
  · exact List.length_take_le _ _
  · have hsorted := @pairwise_sortB_lex _ strLt
      (fun a b c => strLt_neg_trans a b c)
      (fun a b => strLt_asymm a b)
      (fun _ _ => True) _
      (@pairwise_trivial_true _ (enhanceTermsM q (analyzeQueryM q)))
    refine List.Pairwise.sublist (List.take_sublist _ _) (hsorted.imp ?_)
    intro a b hab
    rcases hab with h | ⟨_, h, _⟩
    · exact strLt_asymm a b h
    · exact h
  · intro t ht
    have : t ∈ enhanceTermsM q (analyzeQueryM q) :=
      mem_sortB.1 (List.mem_of_mem_take ht)
    exact mem_enhanceTermsM this

theorem enhance_query_prefix_sorted_capped_witness :
    pyStartsWith (enhanceQueryM "what scale?") "what scale?" = true ∧
    (sortedEnhanceTerms "what scale?" (analyzeQueryM "what scale?")).length ≤
      queryEnhancementMaxTerms ∧
    (sortedEnhanceTerms "what scale?" (analyzeQueryM "what scale?")).Pairwise
      (fun a b => strLt b a = false) ∧
    (∀ t ∈ sortedEnhanceTerms "what scale?" (analyzeQueryM "what scale?"),
      strIn t (pyLower "what scale?") = false ∨
        t ∈ questionBranchTerms (pyLower "what scale?")
          (analyzeQueryM "what scale?").questionType) :=
  enhance_query_prefix_sorted_capped "what scale?"


/-- **C10 (amended).**  `retrieve` never propagates an exception: its
surrounding `try/except` turns any escaped error into `[]`.  An error in
the embedding call (the only collaborator whose errors reach `retrieve`'s
handler) yields an empty result list — here stated for the image-first and
general branches, the ones that always embed.  Errors inside
`VectorStore.query` or `SparseIndex.query` are caught locally instead and
retrieval degrades to the surviving path, which can return non-empty
results (so they are not equivalent to an absence of matches). -/
theorem retrieve_embed_error_yields_empty (env : REnv) (q : String) (n : ℕ)
    (oq : Option String) (hf : env.embedFail = true)
    (hs : isSectionHeadingQueryM (oq.getD q) = false) :
    retrieveM env q n oq = [] := by
  rw [retrieveM, retrieveE]
  rw [hs]
  simp only [Bool.false_eq_true, if_false]
  by_cases hi : isImageQueryM (oq.getD q) = true
  · rw [hi]
    simp [embedQueryE, hf]
  · rw [Bool.eq_false_iff.2 hi]
    simp [embedQueryE, hf]

/-- Closed form of the section branch's heading pass: the heading segments
of the collection, in collection order, at score 1 and 1-based rank. -/
theorem buildSectionHeadings_closed (docs : List Doc) :
    buildSectionHeadings docs =
      (enumFrom 0 (docs.filter (fun d => isHeadingMd d.metadata))).map
        (fun p => ⟨MVal.s p.2.id, p.2.text, 1, p.1 + 1, p.2.metadata, none⟩) := by
  rw [buildSectionHeadings]
  suffices hgen : ∀ (ds : List Doc) (acc : List RResult),
      ds.foldl (fun acc d =>
        if isHeadingMd d.metadata then
          acc ++ [⟨MVal.s d.id, d.text, 1, acc.length + 1, d.metadata, none⟩]
        else acc) acc =
      acc ++ (enumFrom acc.length (ds.filter (fun d => isHeadingMd d.metadata))).map
        (fun p => ⟨MVal.s p.2.id, p.2.text, 1, p.1 + 1, p.2.metadata, none⟩) by
    simpa using hgen docs []
  intro ds
  induction ds with
  | nil =>
    intro acc
    simp [enumFrom]
  | cons d rest ih =>
    intro acc
    rw [List.foldl_cons]
    by_cases hd : isHeadingMd d.metadata = true
    · rw [if_pos hd, ih, List.filter_cons, if_pos hd]
      rw [show enumFrom acc.length (d :: rest.filter (fun d => isHeadingMd d.metadata)) =
        (acc.length, d) :: enumFrom (acc.length + 1)
          (rest.filter (fun d => isHeadingMd d.metadata)) from rfl]
      simp
    · rw [if_neg hd, ih, List.filter_cons, if_neg hd]

/-- The section backfill only appends, and only non-heading rows. -/
theorem sectionBackfill_spec (sh : List RResult) (add : DenseRes) :
    ∃ rest, sectionBackfill sh add = sh ++ rest ∧
      ∀ x ∈ rest, isHeadingMd x.metadata = false := by
  rw [sectionBackfill]
  by_cases he : add.ids.isEmpty = true
  · rw [if_pos he]
    exact ⟨[], by simp, by simp⟩
  · rw [if_neg he]
    suffices hgen : ∀ (rows : List (String × String × Metadata × ℚ))
        (acc : List RResult),
        ∃ rest, rows.foldl (fun acc row =>
          if isHeadingMd row.2.2.1 then acc
          else acc ++ [⟨MVal.s row.1, row.2.1, 1 - row.2.2.2, acc.length + 1,
            row.2.2.1, none⟩]) acc = acc ++ rest ∧
          ∀ x ∈ rest, isHeadingMd x.metadata = false from hgen (denseRows add) sh
    intro rows
    induction rows with
    | nil =>
      intro acc
      exact ⟨[], by simp, by simp⟩
    | cons row rest ih =>
      intro acc
      rw [List.foldl_cons]
      by_cases hr : isHeadingMd row.2.2.1 = true
      · rw [if_pos hr]
        exact ih acc
      · rw [if_neg hr]
        rcases ih (acc ++ [⟨MVal.s row.1, row.2.1, 1 - row.2.2.2, acc.length + 1,
          row.2.2.1, none⟩]) with ⟨rest', h1, h2⟩
        refine ⟨⟨MVal.s row.1, row.2.1, 1 - row.2.2.2, acc.length + 1,
          row.2.2.1, none⟩ :: rest', ?_, ?_⟩
        · rw [h1, List.append_assoc]
          rfl
        · intro x hx
          rcases List.mem_cons.1 hx with rfl | hx'
          · exact Bool.eq_false_iff.2 hr
          · exact h2 x hx'

/-- **C3 (amended).**  Whenever the classifier flags a section-heading
query (and the embedding call succeeds), `retrieve` scans the entire
collection for section-heading segments and returns all of them first, in
original document order, at the ceiling score 1.0, before any non-heading
result; at most `n` results are returned, and when the corpus holds `H ≤ n`
headings all `H` are present.  The backfill, however, consists of the
non-heading rows of a single dense retrieval of `n − H` candidates — so the
response can hold fewer than `n` results even when the corpus has more
non-heading segments (the original claim's "until n is reached or the
corpus is exhausted" does not hold). -/
theorem section_branch_headings_first (env : REnv) (q : String) (n : ℕ)
    (oq : Option String)
    (hq : isSectionHeadingQueryM (oq.getD q) = true)
    (he : env.embedFail = false) :
    (buildSectionHeadings env.docs =
      (enumFrom 0 (env.docs.filter (fun d => isHeadingMd d.metadata))).map
        (fun p => ⟨MVal.s p.2.id, p.2.text, 1, p.1 + 1, p.2.metadata, none⟩)) ∧
    (retrieveM env q n oq).length ≤ n ∧
    (retrieveM env q n oq).take (min (buildSectionHeadings env.docs).length n) =
      (buildSectionHeadings env.docs).take n ∧
    (∀ r ∈ (retrieveM env q n oq).drop (buildSectionHeadings env.docs).length,
      isHeadingMd r.metadata = false) ∧
    ((buildSectionHeadings env.docs).length ≤ n →
      (buildSectionHeadings env.docs).length ≤ (retrieveM env q n oq).length) := by
  have hout : retrieveM env q n oq =
      (if (buildSectionHeadings env.docs).length < n then
        (sectionBackfill (buildSectionHeadings env.docs)
          (vsQuery env (n - (buildSectionHeadings env.docs).length) none)).take n
      else (buildSectionHeadings env.docs).take n) := by
    rw [retrieveM, retrieveE, hq]
    by_cases hc : (buildSectionHeadings env.docs).length < n
    · simp [hc, embedQueryE, he]
    · simp [hc]
  set sh := buildSectionHeadings env.docs with hsh
  rcases sectionBackfill_spec sh (vsQuery env (n - sh.length) none) with ⟨rest, hbf, hrest⟩
  refine ⟨buildSectionHeadings_closed env.docs, ?_, ?_, ?_, ?_⟩
  · rw [hout]
    by_cases hc : sh.length < n
    · rw [if_pos hc]
      exact List.length_take_le n _
    · rw [if_neg hc]
      exact List.length_take_le n _
  · rw [hout]
    by_cases hc : sh.length < n
    · rw [if_pos hc, hbf]
      rw [min_eq_left (le_of_lt hc), List.take_take, min_eq_left (le_of_lt hc)]
      rw [List.take_left, List.take_all_of_le (le_of_lt hc)]
    · rw [if_neg hc, List.take_take]
      have h1 : min sh.length n = n := min_eq_right (le_of_not_lt hc)
      rw [h1, min_self]
  · intro r hr
    rw [hout] at hr
    by_cases hc : sh.length < n
    · rw [if_pos hc, hbf] at hr
      have hsub : List.Sublist (((sh ++ rest).take n).drop sh.length)
          ((sh ++ rest).drop sh.length) :=
        List.Sublist.drop (List.take_sublist n (sh ++ rest)) sh.length
      have hr' : r ∈ (sh ++ rest).drop sh.length := hsub.mem hr
      rw [List.drop_left] at hr'
      exact hrest r hr'
    · rw [if_neg hc] at hr
      have : (sh.take n).drop sh.length = [] := by
        apply List.drop_eq_nil_of_le
        exact le_trans (List.length_take_le n sh) (le_of_not_lt hc)
      rw [this] at hr
      simp at hr
  · intro hn
    rw [hout]
    by_cases hc : sh.length < n
    · rw [if_pos hc, hbf, List.length_take, List.length_append]
      omega
    · rw [if_neg hc, List.length_take]
      omega


theorem enum_eq_enumFrom (l : List α) : l.enum = enumFrom 0 l := by
  suffices h : ∀ n, l.enumFrom n = enumFrom n l by
    rw [List.enum, h 0]
  induction l with
  | nil =>
    intro n
    rfl
  | cons x xs ih =>
    intro n
    rw [List.enumFrom, enumFrom, ih (n + 1)]

theorem pairwise_fst_enum (l : List α) :
    l.enum.Pairwise (fun a b => a.1 < b.1) := by
  rw [enum_eq_enumFrom]
  exact pairwise_fst_enumFrom 0 l

/-- **C5 (amended).**  `SparseIndex.query` returns at most `k` results; it
returns `[]` — not an error — when no documents have been added; and its
output is sorted by descending BM25 score with ties broken by original
insertion order.  (Unlike the claim: segments with score ≤ 0 are *not*
excluded, and a query with an empty token set scores every document 0 and
returns the documents, rather than returning an empty list; the sortedness
conjunct assumes some document has a nonempty token list, the corner where
the library's average-document-length division is defined.) -/
theorem sparse_query_truncates_and_sorts (idx : SparseIndexM)
    (idf : String → ℚ) (q : String) (n : ℕ) :
    (sparseQuery idx idf q n).length ≤ n ∧
    (idx.documents = [] → sparseQuery idx idf q n = []) ∧
    ((∃ d ∈ idx.documents, tokenizeAdd d ≠ []) →
      (sparseQuery idx idf q n).Pairwise
        (fun a b => b.2 < a.2 ∨ (a.2 = b.2 ∧ a.1 < b.1))) := by
  refine ⟨?_, ?_, ?_⟩
  · rw [sparseQuery]
    by_cases h : idx.documents.isEmpty = true
    · simp [h]
    · simp only [h, Bool.false_eq_true, if_false]
      exact List.length_take_le n _
  · intro h
    rw [sparseQuery]
    simp [h]
  · intro _
    rw [sparseQuery]
    by_cases h : idx.documents.isEmpty = true
    · simp [h]
    · simp only [h, Bool.false_eq_true, if_false]
      have hsorted := @pairwise_sortB_lex _
        (fun a b : ℕ × ℚ => decide (b.2 < a.2))
        (by
          intro a b c hab hbc
          simp only [decide_eq_false_iff_not, not_lt] at hab hbc ⊢
          exact le_trans hab hbc)
        (by
          intro a b hab
          simp only [decide_eq_true_eq] at hab
          simp only [decide_eq_false_iff_not, not_lt]
          exact le_of_lt hab)
        (fun a b : ℕ × ℚ => a.1 < b.1) _
        (pairwise_fst_enum (bm25GetScores idf (idx.documents.map tokenizeAdd)
          (tokenizeQuery q)))
      refine List.Pairwise.sublist (List.take_sublist _ _) (hsorted.imp ?_)
      intro a b hab
      rcases hab with hlt | ⟨hf1, hf2, hr⟩
      · left
        simpa using hlt
      · right
        have h1 : a.2 ≤ b.2 := by simpa using hf1
        have h2 : b.2 ≤ a.2 := by simpa using hf2
        exact ⟨le_antisymm h1 h2, hr⟩

theorem sparse_query_truncates_and_sorts_witness :
    (sparseQuery ⟨["apple banana", "cherry"], [[], []]⟩ (fun _ => 1) "apple" 10).Pairwise
      (fun a b => b.2 < a.2 ∨ (a.2 = b.2 ∧ a.1 < b.1)) :=
  (sparse_query_truncates_and_sorts ⟨["apple banana", "cherry"], [[], []]⟩
      (fun _ => 1) "apple" 10).2.2 ⟨"cherry", by decide, by decide⟩

/-- **C6 (amended).**  The negative-guard patterns for generic
overview/topic/summary questions are evaluated only after the three
positive image-intent rules (explicit phrase, noun+verb or interrogative
stem, compound regex) have all failed; for a query matching a guard
pattern and none of the earlier rules, the classification is non-visual.
(The guard does not override an earlier rule: a query matched by an
earlier rule is classified visual even if a guard pattern also matches.) -/
theorem guard_applies_only_when_positive_rules_fail (q : String)
    (hg : guardPatternHit (pyLower q) = true)
    (h1 : explicitPhraseHit (pyLower q) = false)
    (h2 : nounVerbHit (pyLower q) = false)
    (h3 : visualPatternHit (pyLower q) = false) :
    isImageQueryM q = false := by
  rw [isImageQueryM]
  simp [h1, h2, h3, hg]

theorem guard_applies_only_when_positive_rules_fail_witness :
    isImageQueryM "what topics are covered" = false :=
  guard_applies_only_when_positive_rules_fail "what topics are covered"
    (by decide) (by decide) (by decide) (by decide)

theorem mem_wordsByAux {p : Char → Bool} :
    ∀ {rest cur : List Char} {w : List Char},
      (∀ c ∈ cur, p c = false) → w ∈ wordsByAux p cur rest →
      w ≠ [] ∧ ∀ c ∈ w, p c = false := by
  intro rest
  induction rest with
  | nil =>
    intro cur w hcur hw
    by_cases h : cur = []
    · rw [wordsByAux, if_pos h] at hw
      simp at hw
    · rw [wordsByAux, if_neg h] at hw
      rw [List.mem_singleton] at hw
      subst hw
      refine ⟨by simpa using h, ?_⟩
      intro c hc
      exact hcur c (List.mem_reverse.1 hc)
  | cons c cs ih =>
    intro cur w hcur hw
    by_cases hp : p c = true
    · by_cases h : cur = []
      · subst h
        rw [wordsByAux, if_pos hp, if_pos rfl] at hw
        exact ih (by intro x hx; simp at hx) hw
      · rw [wordsByAux, if_pos hp, if_neg h] at hw
        rcases List.mem_cons.1 hw with rfl | hw'
        · refine ⟨by simpa using h, ?_⟩
          intro x hx
          exact hcur x (List.mem_reverse.1 hx)
        · exact ih (by intro x hx; simp at hx) hw'
    · have hp' : p c = false := Bool.eq_false_iff.2 hp
      rw [wordsByAux, if_neg hp] at hw
      refine ih ?_ hw
      intro x hx
      rcases List.mem_cons.1 hx with rfl | hx'
      · exact hp'
      · exact hcur x hx'

/-- **C9 (amended).**  The identical tokenization — lower-casing and
splitting on runs of whitespace (not on non-alphanumeric boundaries) — is
applied when documents are added to the sparse index and when a query is
scored against it: the two transcriptions are one function, and every
produced token is nonempty and contains no whitespace character. -/
theorem tokenization_identical_and_whitespace_based (s : String) :
    tokenizeAdd s = tokenizeQuery s ∧
    ∀ t ∈ tokenizeAdd s, t ≠ "" ∧ ∀ c ∈ t.data, c.isWhitespace = false := by
  refine ⟨rfl, ?_⟩
  intro t ht
  rw [tokenizeAdd, wordsBy] at ht
  rcases List.mem_map.1 ht with ⟨w, hw, rfl⟩
  have hfacts := @mem_wordsByAux Char.isWhitespace _ [] _
    (by intro c hc; simp at hc) hw
  refine ⟨?_, ?_⟩
  · intro he
    apply hfacts.1
    exact congrArg String.data he
  · intro c hc
    exact hfacts.2 c hc

theorem tokenization_identical_and_whitespace_based_witness :
    tokenizeAdd "What Scale" = tokenizeQuery "What Scale" ∧
    ∀ t ∈ tokenizeAdd "What Scale", t ≠ "" ∧ ∀ c ∈ t.data, c.isWhitespace = false :=
  tokenization_identical_and_whitespace_based "What Scale"


theorem zip_map_quad {α : Type} {β1 β2 β3 β4 : Type}
    (l : List α) (f1 : α → β1) (f2 : α → β2) (f3 : α → β3) (f4 : α → β4) :
    (l.map f1).zip ((l.map f2).zip ((l.map f3).zip (l.map f4))) =
      l.map (fun x => (f1 x, f2 x, f3 x, f4 x)) := by
  induction l with
  | nil => rfl
  | cons x xs ih => simp [ih]

/-- The rows of a dense query result, in terms of the selected store
entries. -/
theorem denseRows_vsQuery (env : REnv) (k : ℕ) (filt : Option (Metadata → Bool))
    (hd : env.denseFail = false) :
    denseRows (vsQuery env k filt) =
      ((sortB (fun a b => decide (env.dist a.1 < env.dist b.1))
        (env.docs.enum.filter (fun p =>
          match filt with
          | none => true
          | some f => f p.2.metadata))).take k).map
        (fun p => (p.2.id, p.2.text, p.2.metadata, env.dist p.1)) := by
  rw [vsQuery, if_neg (by rw [hd]; exact Bool.false_ne_true)]
  rw [denseRows]
  exact zip_map_quad _ _ _ _ _

theorem mem_denseRows_filter (env : REnv) (k : ℕ) (f : Metadata → Bool)
    (hd : env.denseFail = false) {row : String × String × Metadata × ℚ}
    (h : row ∈ denseRows (vsQuery env k (some f))) :
    f row.2.2.1 = true := by
  rw [denseRows_vsQuery env k (some f) hd] at h
  rcases List.mem_map.1 h with ⟨p, hp, rfl⟩
  have hp' : p ∈ sortB (fun a b => decide (env.dist a.1 < env.dist b.1))
      (env.docs.enum.filter (fun p =>
        match some f with
        | none => true
        | some f => f p.2.metadata)) := List.mem_of_mem_take hp
  have hp'' := mem_sortB.1 hp'
  exact (List.mem_filter.1 hp'').2

theorem ids_length_vsQuery (env : REnv) (k : ℕ) (filt : Option (Metadata → Bool))
    (hd : env.denseFail = false) :
    (vsQuery env k filt).ids.length =
      min k (env.docs.enum.filter (fun p =>
        match filt with
        | none => true
        | some f => f p.2.metadata)).length := by
  rw [vsQuery, if_neg (by rw [hd]; exact Bool.false_ne_true)]
  simp [List.length_take, length_sortB]

theorem denseRows_length_eq_ids_length (r : DenseRes)
    (h2 : r.documents.length = r.ids.length)
    (h3 : r.metadatas.length = r.ids.length)
    (h4 : r.distances.length = r.ids.length) :
    (denseRows r).length = r.ids.length := by
  rw [denseRows]
  simp [List.length_zip, h2, h3, h4]

theorem vsQuery_fields_length (env : REnv) (k : ℕ) (filt : Option (Metadata → Bool)) :
    (vsQuery env k filt).documents.length = (vsQuery env k filt).ids.length ∧
    (vsQuery env k filt).metadatas.length = (vsQuery env k filt).ids.length ∧
    (vsQuery env k filt).distances.length = (vsQuery env k filt).ids.length := by
  rw [vsQuery]
  by_cases h : env.denseFail = true
  · simp [h]
  · simp [h]

theorem enumFrom_filter_snd_length (g : α → Bool) :
    ∀ (l : List α) (s : ℕ),
      ((enumFrom s l).filter (fun p => g p.2)).length = (l.filter g).length := by
  intro l
  induction l with
  | nil => intro s; rfl
  | cons x xs ih =>
    intro s
    rw [show enumFrom s (x :: xs) = (s, x) :: enumFrom (s + 1) xs from rfl]
    rw [List.filter_cons, List.filter_cons]
    by_cases hx : g x = true
    · simp only [hx, if_true]
      simp [ih (s + 1)]
    · simp only [hx, Bool.false_eq_true, if_false]
      exact ih (s + 1)

theorem enum_filter_snd_length (g : α → Bool) (l : List α) :
    (l.enum.filter (fun p => g p.2)).length = (l.filter g).length := by
  rw [enum_eq_enumFrom]
  exact enumFrom_filter_snd_length g l 0

/-- The restricted query's `where` filter implies the code's `is_image`
re-check. -/
theorem imageWhere_implies_isImageMd {m : Metadata} (h : imageWhere m = true) :
    isImageMd m = true := by
  rw [imageWhere] at h
  rw [isImageMd]
  rcases Bool.or_eq_true_iff.1 h with h' | h3
  · rcases Bool.or_eq_true_iff.1 h' with h1 | h2
    · have : mdLookup m "content_type" = some (MVal.s "image") := by
        simpa using h1
      simp [mdGetD, this]
    · have : mdLookup m "content_type" = some (MVal.s "image_reference") := by
        simpa using h2
      simp [mdGetD, this]
  · have : mdLookup m "has_vision_analysis" = some (MVal.b true) := by
      simpa using h3
    simp [mdGetD, this, mvalTruthy]

/-- When every considered row passes the `is_image` re-check, stage 1
keeps them all. -/
theorem imageStage_length (n : ℕ) (res : DenseRes)
    (hall : ∀ row ∈ denseRows res, isImageMd row.2.2.1 = true)
    (hne : res.ids.isEmpty = false) :
    (imageStage n res).length = min (n / 2) (min res.ids.length (denseRows res).length) := by
  rw [imageStage, if_neg (by rw [hne]; exact Bool.false_ne_true)]
  have hgen : ∀ (rows : List (String × String × Metadata × ℚ)) (acc : List RResult),
      (∀ row ∈ rows, isImageMd row.2.2.1 = true) →
      (rows.foldl (fun acc row =>
        if isImageMd row.2.2.1 then
          acc ++ [⟨MVal.s row.1, row.2.1, 1 - row.2.2.2, acc.length + 1, row.2.2.1, none⟩]
        else acc) acc).length = acc.length + rows.length := by
    intro rows
    induction rows with
    | nil => intro acc _; simp
    | cons row rest ih =>
      intro acc hall'
      rw [List.foldl_cons, if_pos (hall' row (List.mem_cons_self _ _))]
      rw [ih _ (fun r hr => hall' r (List.mem_cons_of_mem _ hr))]
      simp
      try omega
  rw [hgen _ [] (fun r hr => hall r (List.mem_of_mem_take hr))]
  simp [List.length_take]
  try omega

/-- Each stage-1 result's metadata is the metadata of one of the
restricted query's rows. -/
theorem imageStage_mem_metadata {n : ℕ} {res : DenseRes} {r : RResult}
    (h : r ∈ imageStage n res) :
    ∃ row ∈ denseRows res, r.metadata = row.2.2.1 := by
  rw [imageStage] at h
  by_cases hne : res.ids.isEmpty = true
  · rw [if_pos hne] at h
    simp at h
  · rw [if_neg hne] at h
    have hgen : ∀ (rows : List (String × String × Metadata × ℚ)) (acc : List RResult),
        r ∈ rows.foldl (fun acc row =>
          if isImageMd row.2.2.1 then
            acc ++ [⟨MVal.s row.1, row.2.1, 1 - row.2.2.2, acc.length + 1, row.2.2.1, none⟩]
          else acc) acc →
        r ∈ acc ∨ ∃ row ∈ rows, r.metadata = row.2.2.1 := by
      intro rows
      induction rows with
      | nil =>
        intro acc h'
        exact Or.inl h'
      | cons row rest ih =>
        intro acc h'
        rw [List.foldl_cons] at h'
        by_cases hr : isImageMd row.2.2.1 = true
        · rw [if_pos hr] at h'
          rcases ih _ h' with h'' | h''
          · rcases List.mem_append.1 h'' with h3 | h3
            · exact Or.inl h3
            · refine Or.inr ⟨row, List.mem_cons_self _ _, ?_⟩
              rw [List.mem_singleton.1 h3]
          · rcases h'' with ⟨row', hrow', heq⟩
            exact Or.inr ⟨row', List.mem_cons_of_mem _ hrow', heq⟩
        · rw [if_neg hr] at h'
          rcases ih _ h' with h'' | h''
          · exact Or.inl h''
          · rcases h'' with ⟨row', hrow', heq⟩
            exact Or.inr ⟨row', List.mem_cons_of_mem _ hrow', heq⟩
    rcases hgen _ [] h with h' | h'
    · simp at h'
    · rcases h' with ⟨row, hrow, heq⟩
      exact ⟨row, List.mem_of_mem_take hrow, heq⟩

/-- Stage 2 only appends to the stage-1 results. -/
theorem imageBackfill_prefix (n : ℕ) (fin1 : List RResult) (dres : DenseRes) :
    ∃ rest, imageBackfill n fin1 dres = fin1 ++ rest := by
  rw [imageBackfill]
  by_cases hc : (n - fin1.length > 0 && !dres.ids.isEmpty) = true
  · rw [if_pos hc]
    have hgen : ∀ (rows : List (String × String × Metadata × ℚ)) (acc : List RResult),
        ∃ rest, rows.foldl (fun acc row =>
          if acc.any (fun r => r.id == MVal.s row.1) then acc
          else acc ++ [⟨MVal.s row.1, row.2.1, 1 - row.2.2.2, acc.length + 1,
            row.2.2.1, none⟩]) acc = acc ++ rest := by
      intro rows
      induction rows with
      | nil =>
        intro acc
        exact ⟨[], by simp⟩
      | cons row rest ih =>
        intro acc
        rw [List.foldl_cons]
        by_cases hr : (acc.any (fun r => r.id == MVal.s row.1)) = true
        · rw [if_pos hr]
          exact ih acc
        · rw [if_neg hr]
          rcases ih (acc ++ [⟨MVal.s row.1, row.2.1, 1 - row.2.2.2, acc.length + 1,
            row.2.2.1, none⟩]) with ⟨rest', h1⟩
          exact ⟨_ :: rest', by rw [h1, List.append_assoc]; rfl⟩
    exact hgen _ fin1
  · rw [if_neg hc]
    exact ⟨[], by simp⟩

/-- A fold whose step either keeps the accumulator or appends one
element grows by at most the number of rows. -/
theorem foldl_step_length_le {β : Type} (f : List RResult → β → List RResult)
    (hf : ∀ acc x, f acc x = acc ∨ ∃ r, f acc x = acc ++ [r]) :
    ∀ (rows : List β) (acc : List RResult),
      (rows.foldl f acc).length ≤ acc.length + rows.length := by
  intro rows
  induction rows with
  | nil =>
    intro acc
    simp
  | cons row rest ih =>
    intro acc
    rw [List.foldl_cons]
    rcases hf acc row with h | ⟨r, h⟩
    · rw [h]
      calc (rest.foldl f acc).length ≤ acc.length + rest.length := ih acc
        _ ≤ acc.length + (row :: rest).length := by simp
    · rw [h]
      calc (rest.foldl f (acc ++ [r])).length ≤ (acc ++ [r]).length + rest.length := ih _
        _ = acc.length + (row :: rest).length := by
            simp [List.length_append]
            omega

/-- **C4 (amended).**  When the classifier flags image intent (and no
section-heading intent, which takes priority) and the embedding and dense
store succeed, `retrieve` assembles the response from up to `⌊n/2⌋` (floor,
not ceiling) items of a dense retrieval restricted to the image predicate
(content type `image` or `image_reference`, or the vision-analysis flag),
followed by non-duplicate items of an unrestricted dense retrieval, never
exceeding `n` results; the sparse index is not consulted in this branch;
and for a corpus with at least `⌊n/2⌋` image segments, every item in the
first `⌊n/2⌋` response slots satisfies the image predicate. -/
theorem image_branch_floor_half_and_dense_only (env : REnv) (q : String)
    (n : ℕ) (oq : Option String)
    (hs : isSectionHeadingQueryM (oq.getD q) = false)
    (hi : isImageQueryM (oq.getD q) = true)
    (he : env.embedFail = false)
    (hd : env.denseFail = false)
    (him : n / 2 ≤ (env.docs.filter (fun d => imageWhere d.metadata)).length) :
    (n / 2 ≤ (retrieveM env q n oq).length ∧
      ∀ r ∈ (retrieveM env q n oq).take (n / 2), imageWhere r.metadata = true) ∧
    (retrieveM env q n oq).length ≤ n ∧
    (∀ sd sm idf2 sf,
      retrieveM { env with
          sparseDocs := sd
          sparseMeta := sm
          idf := idf2
          sparseFail := sf } q n oq = retrieveM env q n oq) := by
  have hout : retrieveM env q n oq =
      imageBackfill n (imageStage n (vsQuery env (n * 2) (some imageWhere)))
        (vsQuery env (n * 2) none) := by
    rw [retrieveM, retrieveE, hs]
    simp [hi, embedQueryE, he]
  have hall : ∀ row ∈ denseRows (vsQuery env (n * 2) (some imageWhere)),
      isImageMd row.2.2.1 = true :=
    fun row hr => imageWhere_implies_isImageMd
      (mem_denseRows_filter env (n * 2) imageWhere hd hr)
  have hflen := vsQuery_fields_length env (n * 2) (some imageWhere)
  have hrows_len : (denseRows (vsQuery env (n * 2) (some imageWhere))).length =
      (vsQuery env (n * 2) (some imageWhere)).ids.length :=
    denseRows_length_eq_ids_length _ hflen.1 hflen.2.1 hflen.2.2
  have hids : (vsQuery env (n * 2) (some imageWhere)).ids.length =
      min (n * 2) (env.docs.enum.filter (fun p => imageWhere p.2.metadata)).length := by
    exact ids_length_vsQuery env (n * 2) (some imageWhere) hd
  have henum : (env.docs.enum.filter (fun p => imageWhere p.2.metadata)).length =
      (env.docs.filter (fun d => imageWhere d.metadata)).length :=
    enum_filter_snd_length (fun d => imageWhere d.metadata) env.docs
  have hids_ge : n / 2 ≤ (vsQuery env (n * 2) (some imageWhere)).ids.length := by
    rw [hids, henum]
    exact le_min (by omega) him
  rcases imageBackfill_prefix n (imageStage n (vsQuery env (n * 2) (some imageWhere)))
    (vsQuery env (n * 2) none) with ⟨rest, hpre⟩
  have hstage_le : (imageStage n (vsQuery env (n * 2) (some imageWhere))).length ≤ n / 2 := by
    rw [imageStage]
    by_cases hne : (vsQuery env (n * 2) (some imageWhere)).ids.isEmpty = true
    · rw [if_pos hne]
      simp
    · rw [if_neg hne]
      have hb := foldl_step_length_le
        (fun acc row =>
          if isImageMd row.2.2.1 then
            acc ++ [⟨MVal.s row.1, row.2.1, 1 - row.2.2.2, acc.length + 1,
              row.2.2.1, none⟩]
          else acc)
        (by
          intro acc x
          by_cases hx : isImageMd x.2.2.1 = true
          · exact Or.inr ⟨⟨MVal.s x.1, x.2.1, 1 - x.2.2.2, acc.length + 1,
              x.2.2.1, none⟩, by simp [hx]⟩
          · exact Or.inl (by simp [hx]))
        ((denseRows (vsQuery env (n * 2) (some imageWhere))).take
          (min (n / 2) (vsQuery env (n * 2) (some imageWhere)).ids.length)) []
      calc _ ≤ 0 + ((denseRows (vsQuery env (n * 2) (some imageWhere))).take
          (min (n / 2) (vsQuery env (n * 2) (some imageWhere)).ids.length)).length := hb
        _ ≤ n / 2 := by
            rw [List.length_take]
            omega
  by_cases hzero : n / 2 = 0
  · -- the first-slots statement is vacuous
    refine ⟨⟨by omega, ?_⟩, ?_, ?_⟩
    · intro r hr
      rw [hzero] at hr
      simp at hr
    · -- at most n results
      rw [hout, imageBackfill]
      by_cases hc : ((n - (imageStage n (vsQuery env (n * 2) (some imageWhere))).length > 0)
          && !(vsQuery env (n * 2) none).ids.isEmpty) = true
      · rw [if_pos hc]
        have hb := foldl_step_length_le
          (fun acc row =>
            if acc.any (fun r => r.id == MVal.s row.1) then acc
            else acc ++ [⟨MVal.s row.1, row.2.1, 1 - row.2.2.2, acc.length + 1,
              row.2.2.1, none⟩])
          (by
            intro acc x
            by_cases hx : (acc.any (fun r => r.id == MVal.s x.1)) = true
            · exact Or.inl (by simp [hx])
            · exact Or.inr ⟨⟨MVal.s x.1, x.2.1, 1 - x.2.2.2, acc.length + 1,
                x.2.2.1, none⟩, by simp [hx]⟩)
          ((denseRows (vsQuery env (n * 2) none)).take
            (min (n - (imageStage n (vsQuery env (n * 2) (some imageWhere))).length)
              (vsQuery env (n * 2) none).ids.length))
          (imageStage n (vsQuery env (n * 2) (some imageWhere)))
        calc _ ≤ _ := hb
          _ ≤ n := by
              rw [List.length_take]
              omega
      · rw [if_neg hc]
        omega
    · intro sd sm idf2 sf
      have hout' : retrieveM { env with
          sparseDocs := sd
          sparseMeta := sm
          idf := idf2
          sparseFail := sf } q n oq =
          imageBackfill n (imageStage n (vsQuery env (n * 2) (some imageWhere)))
            (vsQuery env (n * 2) none) := by
        rw [retrieveM, retrieveE, hs]
        simp [hi, embedQueryE, he]
        rfl
      rw [hout', hout]
  · -- n / 2 > 0: the restricted query returns at least n / 2 image rows
    have hne : (vsQuery env (n * 2) (some imageWhere)).ids.isEmpty = false := by
      have : 0 < (vsQuery env (n * 2) (some imageWhere)).ids.length := by omega
      cases hc : (vsQuery env (n * 2) (some imageWhere)).ids with
      | nil => rw [hc] at this; simp at this
      | cons x xs => rfl
    have hstage_eq : (imageStage n (vsQuery env (n * 2) (some imageWhere))).length =
        n / 2 := by
      rw [imageStage_length n _ hall hne, hrows_len]
      omega
    refine ⟨⟨?_, ?_⟩, ?_, ?_⟩
    · rw [hout, hpre, List.length_append, hstage_eq]
      omega
    · intro r hr
      rw [hout, hpre] at hr
      rw [List.take_append_of_le_length (by omega)] at hr
      have hr' : r ∈ imageStage n (vsQuery env (n * 2) (some imageWhere)) :=
        List.mem_of_mem_take hr
      rcases imageStage_mem_metadata hr' with ⟨row, hrow, heq⟩
      rw [heq]
      exact mem_denseRows_filter env (n * 2) imageWhere hd hrow
    · rw [hout, imageBackfill]
      by_cases hc : ((n - (imageStage n (vsQuery env (n * 2) (some imageWhere))).length > 0)
          && !(vsQuery env (n * 2) none).ids.isEmpty) = true
      · rw [if_pos hc]
        have hb := foldl_step_length_le
          (fun acc row =>
            if acc.any (fun r => r.id == MVal.s row.1) then acc
            else acc ++ [⟨MVal.s row.1, row.2.1, 1 - row.2.2.2, acc.length + 1,
              row.2.2.1, none⟩])
          (by
            intro acc x
            by_cases hx : (acc.any (fun r => r.id == MVal.s x.1)) = true
            · exact Or.inl (by simp [hx])
            · exact Or.inr ⟨⟨MVal.s x.1, x.2.1, 1 - x.2.2.2, acc.length + 1,
                x.2.2.1, none⟩, by simp [hx]⟩)
          ((denseRows (vsQuery env (n * 2) none)).take
            (min (n - (imageStage n (vsQuery env (n * 2) (some imageWhere))).length)
              (vsQuery env (n * 2) none).ids.length))
          (imageStage n (vsQuery env (n * 2) (some imageWhere)))
        calc _ ≤ _ := hb
          _ ≤ n := by
              rw [List.length_take]
              omega
      · rw [if_neg hc]
        omega
    · intro sd sm idf2 sf
      have hout' : retrieveM { env with
          sparseDocs := sd
          sparseMeta := sm
          idf := idf2
          sparseFail := sf } q n oq =
          imageBackfill n (imageStage n (vsQuery env (n * 2) (some imageWhere)))
            (vsQuery env (n * 2) none) := by
        rw [retrieveM, retrieveE, hs]
        simp [hi, embedQueryE, he]
        rfl
      rw [hout', hout]


theorem range'_take : ∀ (m n s : ℕ), (List.range' s m).take n = List.range' s (min n m) := by
  intro m
  induction m with
  | zero =>
    intro n s
    simp
  | succ m ih =>
    intro n s
    cases n with
    | zero => simp
    | succ n =>
      rw [List.range'_succ, List.take_succ_cons, ih n (s + 1)]
      rw [show min (n + 1) (m + 1) = min n m + 1 from by omega, List.range'_succ]

theorem map_fst_enumFrom : ∀ (l : List α) (r : ℕ),
    (enumFrom r l).map Prod.fst = List.range' r l.length := by
  intro l
  induction l with
  | nil =>
    intro r
    rfl
  | cons x xs ih =>
    intro r
    rw [show enumFrom r (x :: xs) = (r, x) :: enumFrom (r + 1) xs from rfl]
    rw [List.map_cons, ih (r + 1)]
    rw [show (x :: xs).length = xs.length + 1 from rfl, List.range'_succ]

theorem map_rank_enumFrom : ∀ (l : List α) (r : ℕ),
    (enumFrom r l).map (fun p => p.1 + 1) = List.range' (r + 1) l.length := by
  intro l
  induction l with
  | nil =>
    intro r
    rfl
  | cons x xs ih =>
    intro r
    rw [show enumFrom r (x :: xs) = (r, x) :: enumFrom (r + 1) xs from rfl]
    rw [List.map_cons, ih (r + 1)]
    rw [show (x :: xs).length = xs.length + 1 from rfl, List.range'_succ]

/-- A fold whose step appends (if anything) an element carrying rank
`acc.length + 1` keeps ranks 1-indexed and contiguous. -/
theorem foldl_rank_contig {β : Type} (f : List RResult → β → List RResult)
    (hf : ∀ acc x, f acc x = acc ∨
      ∃ r, r.rank = acc.length + 1 ∧ f acc x = acc ++ [r]) :
    ∀ (rows : List β) (acc : List RResult),
      acc.map (fun r => r.rank) = List.range' 1 acc.length →
      (rows.foldl f acc).map (fun r => r.rank) =
        List.range' 1 (rows.foldl f acc).length := by
  intro rows
  induction rows with
  | nil =>
    intro acc hacc
    simpa using hacc
  | cons row rest ih =>
    intro acc hacc
    rw [List.foldl_cons]
    rcases hf acc row with h | ⟨r, hr, h⟩
    · rw [h]
      exact ih acc hacc
    · rw [h]
      apply ih
      rw [List.map_append, hacc, List.length_append]
      rw [List.map_singleton, hr]
      rw [show acc.length + [r].length = acc.length + 1 from by simp]
      rw [List.range'_concat]
      simp [Nat.add_comm]

/-- A fold whose step always appends the row's image is a map. -/
theorem foldl_all_append {β : Type} (f : List RResult → β → List RResult)
    (g : β → RResult) :
    ∀ (rows : List β) (acc : List RResult),
      (∀ acc' x, x ∈ rows → f acc' x = acc' ++ [g x]) →
      rows.foldl f acc = acc ++ rows.map g := by
  intro rows
  induction rows with
  | nil =>
    intro acc _
    simp
  | cons row rest ih =>
    intro acc hall
    rw [List.foldl_cons, hall acc row (List.mem_cons_self _ _)]
    rw [ih _ (fun a x hx => hall a x (List.mem_cons_of_mem _ hx))]
    simp

theorem sparseQuery_fst_lt {idx : SparseIndexM} {idf : String → ℚ}
    {q : String} {n : ℕ} {p : ℕ × ℚ} (h : p ∈ sparseQuery idx idf q n) :
    p.1 < idx.documents.length := by
  rw [sparseQuery] at h
  by_cases he : idx.documents.isEmpty = true
  · rw [if_pos he] at h
    simp at h
  · rw [if_neg he] at h
    have h1 : p ∈ (bm25GetScores idf (idx.documents.map tokenizeAdd)
        (tokenizeQuery q)).enum := mem_sortB.1 (List.mem_of_mem_take h)
    rw [enum_eq_enumFrom] at h1
    have h2 : p.1 ∈ (enumFrom 0 (bm25GetScores idf (idx.documents.map tokenizeAdd)
        (tokenizeQuery q))).map Prod.fst := List.mem_map.2 ⟨p, h1, rfl⟩
    rw [map_fst_enumFrom] at h2
    rw [List.mem_range'] at h2
    have h3 : (bm25GetScores idf (idx.documents.map tokenizeAdd)
        (tokenizeQuery q)).length = idx.documents.length := by
      rw [bm25GetScores, List.length_map, List.length_map]
    omega

theorem sparseQuery_fst_nodup (idx : SparseIndexM) (idf : String → ℚ)
    (q : String) (n : ℕ) :
    ((sparseQuery idx idf q n).map Prod.fst).Nodup := by
  rw [sparseQuery]
  by_cases he : idx.documents.isEmpty = true
  · rw [if_pos he]
    simp
  · rw [if_neg he]
    apply List.Nodup.sublist (List.Sublist.map Prod.fst (List.take_sublist _ _))
    have hperm : List.Perm ((sortB (fun a b => decide (b.2 < a.2))
        ((bm25GetScores idf (idx.documents.map tokenizeAdd)
          (tokenizeQuery q)).enum)).map Prod.fst)
        (((bm25GetScores idf (idx.documents.map tokenizeAdd)
          (tokenizeQuery q)).enum).map Prod.fst) :=
      (perm_sortB _).map Prod.fst
    apply hperm.nodup_iff.2
    rw [enum_eq_enumFrom, map_fst_enumFrom]
    exact List.nodup_range' _ _


/-! ## Rank contiguity (claim C8) -/

theorem rank_contig_take (l : List RResult) (n : ℕ)
    (h : l.map (fun r => r.rank) = List.range' 1 l.length) :
    (l.take n).map (fun r => r.rank) = List.range' 1 (l.take n).length := by
  rw [List.map_take, h, range'_take, List.length_take]

theorem buildSectionHeadings_rank_contig (docs : List Doc) :
    (buildSectionHeadings docs).map (fun r => r.rank) =
      List.range' 1 (buildSectionHeadings docs).length := by
  rw [buildSectionHeadings]
  refine foldl_rank_contig _ ?_ docs [] rfl
  intro acc d
  by_cases h : isHeadingMd d.metadata = true
  · exact Or.inr ⟨_, rfl, by rw [if_pos h]⟩
  · exact Or.inl (by rw [if_neg h])

theorem sectionBackfill_rank_contig (sh : List RResult) (add : DenseRes)
    (h : sh.map (fun r => r.rank) = List.range' 1 sh.length) :
    (sectionBackfill sh add).map (fun r => r.rank) =
      List.range' 1 (sectionBackfill sh add).length := by
  rw [sectionBackfill]
  by_cases he : add.ids.isEmpty = true
  · rw [if_pos he]
    exact h
  · rw [if_neg he]
    refine foldl_rank_contig _ ?_ _ sh h
    intro acc row
    by_cases hh : isHeadingMd row.2.2.1 = true
    · exact Or.inl (by rw [if_pos hh])
    · exact Or.inr ⟨_, rfl, by rw [if_neg hh]⟩

theorem imageStage_rank_contig (n : ℕ) (res : DenseRes) :
    (imageStage n res).map (fun r => r.rank) =
      List.range' 1 (imageStage n res).length := by
  rw [imageStage]
  by_cases he : res.ids.isEmpty = true
  · rw [if_pos he]
    rfl
  · rw [if_neg he]
    refine foldl_rank_contig _ ?_ _ [] rfl
    intro acc row
    by_cases hh : isImageMd row.2.2.1 = true
    · exact Or.inr ⟨_, rfl, by rw [if_pos hh]⟩
    · exact Or.inl (by rw [if_neg hh])

theorem imageBackfill_rank_contig (n : ℕ) (fin1 : List RResult) (dres : DenseRes)
    (h : fin1.map (fun r => r.rank) = List.range' 1 fin1.length) :
    (imageBackfill n fin1 dres).map (fun r => r.rank) =
      List.range' 1 (imageBackfill n fin1 dres).length := by
  rw [imageBackfill]
  by_cases hc : (n - fin1.length > 0 && !dres.ids.isEmpty) = true
  · rw [if_pos hc]
    refine foldl_rank_contig _ ?_ _ fin1 h
    intro acc row
    by_cases hd : (acc.any (fun r => r.id == MVal.s row.1)) = true
    · exact Or.inl (by rw [if_pos hd])
    · exact Or.inr ⟨_, rfl, by rw [if_neg hd]⟩
  · rw [if_neg hc]
    exact h

/-- A fold over enumerated rows whose step always appends one element
carrying rank `index + 1` produces the contiguous 1-based rank sequence. -/
theorem foldl_append_rank_range {β : Type} (f : List RResult → ℕ × β → List RResult) :
    ∀ (l : List β) (r : ℕ) (acc : List RResult),
      (∀ (acc' : List RResult) (p : ℕ × β), p ∈ enumFrom r l →
        ∃ g : RResult, g.rank = p.1 + 1 ∧ f acc' p = acc' ++ [g]) →
      acc.map (fun x => x.rank) = List.range' 1 acc.length →
      acc.length = r →
      ((enumFrom r l).foldl f acc).map (fun x => x.rank) =
        List.range' 1 ((enumFrom r l).foldl f acc).length := by
  intro l
  induction l with
  | nil =>
    intro r acc _ hacc _
    simpa using hacc
  | cons x xs ih =>
    intro r acc hall hacc hlen
    have hx : (r, x) ∈ enumFrom r (x :: xs) := by
      rw [show enumFrom r (x :: xs) = (r, x) :: enumFrom (r + 1) xs from rfl]
      exact List.mem_cons_self _ _
    obtain ⟨g, hg, hfg⟩ := hall acc (r, x) hx
    rw [show enumFrom r (x :: xs) = (r, x) :: enumFrom (r + 1) xs from rfl,
      List.foldl_cons, hfg]
    apply ih (r + 1) (acc ++ [g])
    · intro acc' p hp
      refine hall acc' p ?_
      rw [show enumFrom r (x :: xs) = (r, x) :: enumFrom (r + 1) xs from rfl]
      exact List.mem_cons_of_mem _ hp
    · rw [List.map_append, hacc, List.map_singleton, hg, hlen, List.length_append, hlen]
      rw [show r + [g].length = r + 1 from by simp]
      rw [List.range'_concat]
      simp [Nat.add_comm]
    · simp [hlen]

theorem assembleStep_denseHit (dres : DenseRes) (sdocs : List String)
    (smeta : List Metadata) (acc : List RResult) (i ridx : ℕ) (score : ℚ)
    (source : String) (hsrc : source = "dense" ∨ source = "hybrid")
    (hlt : ridx < dres.documents.length)
    (ht : dres.documents.getD ridx "" ≠ "")
    (hm : dres.metadatas.getD ridx [] ≠ []) :
    assembleStep dres sdocs smeta acc (i, ridx, score, source) =
      acc ++ [⟨MVal.s (dres.ids.getD ridx ""), dres.documents.getD ridx "", score,
        i + 1, dres.metadatas.getD ridx [], some source⟩] := by
  have ht2 := ht
  rw [List.getD_eq_getElem _ _ hlt] at ht2
  have hm2 := hm
  rw [List.getD_eq_getElem?_getD] at hm2
  rcases hsrc with rfl | rfl <;>
    simp [assembleStep, hlt, ht2, hm2]

theorem assembleStep_sparseHit (dres : DenseRes) (sdocs : List String)
    (smeta : List Metadata) (acc : List RResult) (i ridx : ℕ) (score : ℚ)
    (hlt : ridx < sdocs.length)
    (ht : sdocs.getD ridx "" ≠ "")
    (hm : smeta.getD ridx [] ≠ []) :
    assembleStep dres sdocs smeta acc (i, ridx, score, "sparse") =
      acc ++ [⟨mdGetD (smeta.getD ridx []) "id" (MVal.s ("sparse_" ++ toString ridx)),
        sdocs.getD ridx "", score, i + 1, smeta.getD ridx [], some "sparse"⟩] := by
  have ht2 := ht
  rw [List.getD_eq_getElem _ _ hlt] at ht2
  have hm2 := hm
  rw [List.getD_eq_getElem?_getD] at hm2
  simp [assembleStep, hlt, ht2, hm2]

theorem mem_documents_vsQuery {env : REnv} {k : ℕ} {filt : Option (Metadata → Bool)}
    {s : String} (h : s ∈ (vsQuery env k filt).documents) :
    ∃ d ∈ env.docs, s = d.text := by
  rw [vsQuery] at h
  by_cases hf : env.denseFail = true
  · rw [if_pos hf] at h
    simp at h
  · rw [if_neg hf] at h
    simp only [] at h
    rcases List.mem_map.1 h with ⟨p, hp, rfl⟩
    have hp1 := mem_sortB.1 (List.mem_of_mem_take hp)
    have hp2 := (List.mem_filter.1 hp1).1
    rw [enum_eq_enumFrom] at hp2
    exact ⟨p.2, (mem_enumFrom hp2).1, rfl⟩

theorem mem_metadatas_vsQuery {env : REnv} {k : ℕ} {filt : Option (Metadata → Bool)}
    {m : Metadata} (h : m ∈ (vsQuery env k filt).metadatas) :
    ∃ d ∈ env.docs, m = d.metadata := by
  rw [vsQuery] at h
  by_cases hf : env.denseFail = true
  · rw [if_pos hf] at h
    simp at h
  · rw [if_neg hf] at h
    simp only [] at h
    rcases List.mem_map.1 h with ⟨p, hp, rfl⟩
    have hp1 := mem_sortB.1 (List.mem_of_mem_take hp)
    have hp2 := (List.mem_filter.1 hp1).1
    rw [enum_eq_enumFrom] at hp2
    exact ⟨p.2, (mem_enumFrom hp2).1, rfl⟩

theorem gbDense_fst_lt {env : REnv} {n : ℕ} {j : ℕ}
    (h : j ∈ (gbDense env n).map Prod.fst) :
    j < (vsQuery env (n * 2) none).documents.length := by
  rw [gbDense] at h
  by_cases he : (vsQuery env (n * 2) none).ids.isEmpty = true
  · rw [if_pos he] at h
    simp at h
  · rw [if_neg he] at h
    rw [List.map_map] at h
    rcases List.mem_map.1 h with ⟨p, hp, rfl⟩
    rw [enum_eq_enumFrom] at hp
    have hj : p.1 ∈ (enumFrom 0 (vsQuery env (n * 2) none).distances).map Prod.fst :=
      List.mem_map.2 ⟨p, hp, rfl⟩
    rw [map_fst_enumFrom] at hj
    have hlt := (List.mem_range'_1.1 hj).2
    have h1 := (vsQuery_fields_length env (n * 2) none).1
    have h2 := (vsQuery_fields_length env (n * 2) none).2.2
    show p.1 < (vsQuery env (n * 2) none).documents.length
    omega

theorem gbDense_fst_nodup (env : REnv) (n : ℕ) :
    ((gbDense env n).map Prod.fst).Nodup := by
  rw [gbDense]
  by_cases he : (vsQuery env (n * 2) none).ids.isEmpty = true
  · rw [if_pos he]
    simp
  · rw [if_neg he]
    rw [List.map_map, enum_eq_enumFrom]
    have : ((enumFrom 0 (vsQuery env (n * 2) none).distances).map Prod.fst).Nodup := by
      rw [map_fst_enumFrom]
      exact List.nodup_range' _ _
    exact this

theorem gbSparse_fst_lt {env : REnv} {q : String} {n : ℕ} {j : ℕ}
    (h : j ∈ (gbSparse env q n).map Prod.fst) : j < env.sparseDocs.length := by
  rw [gbSparse] at h
  by_cases he : env.sparseDocs.isEmpty = true
  · rw [if_pos he] at h
    simp at h
  · rw [if_neg he] at h
    rw [sparseQueryE] at h
    by_cases hsf : env.sparseFail = true
    · rw [if_pos hsf] at h
      simp at h
    · rw [if_neg hsf] at h
      rcases List.mem_map.1 h with ⟨p, hp, rfl⟩
      exact sparseQuery_fst_lt hp

theorem gbSparse_fst_nodup (env : REnv) (q : String) (n : ℕ) :
    ((gbSparse env q n).map Prod.fst).Nodup := by
  rw [gbSparse]
  by_cases he : env.sparseDocs.isEmpty = true
  · rw [if_pos he]
    simp
  · rw [if_neg he]
    rw [sparseQueryE]
    by_cases hsf : env.sparseFail = true
    · rw [if_pos hsf]
      simp
    · rw [if_neg hsf]
      exact sparseQuery_fst_nodup _ _ _ _

/-- Every fused triple of the general branch carries one of the three
source tags and an index in range for the path it will be resolved
against. -/
theorem gbFused_src_bounds {env : REnv} {q : String} {n : ℕ} {t : ℕ × ℚ × String}
    (ht : t ∈ gbFused env q n) :
    ((t.2.2 = "dense" ∨ t.2.2 = "hybrid") ∧
        t.1 < (vsQuery env (n * 2) none).documents.length) ∨
      (t.2.2 = "sparse" ∧ t.1 < env.sparseDocs.length) := by
  rw [gbFused] at ht
  by_cases hb : ¬ (gbDense env n).isEmpty = true ∧ ¬ (gbSparse env q n).isEmpty = true
  · rw [if_pos hb] at ht
    obtain ⟨hmem, _, htag⟩ := (rrf_mem_characterization env.alpha (gbDense env n)
      (gbSparse env q n) (gbDense_fst_nodup env n) (gbSparse_fst_nodup env q n) t).1 ht
    by_cases hjd : t.1 ∈ (gbDense env n).map Prod.fst
    · left
      refine ⟨?_, gbDense_fst_lt hjd⟩
      have hds : (rankOf1 (gbDense env n) t.1).isSome :=
        (rankFrom_isSome_iff_mem 1).2 hjd
      rcases hd : rankOf1 (gbDense env n) t.1 with _ | r
      · rw [hd] at hds
        simp at hds
      · rcases hs : rankOf1 (gbSparse env q n) t.1 with _ | s
        · left
          rw [htag, rrfTagSpec, hd, hs]
        · right
          rw [htag, rrfTagSpec, hd, hs]
    · right
      have hjs : t.1 ∈ (gbSparse env q n).map Prod.fst := hmem.resolve_left hjd
      refine ⟨?_, gbSparse_fst_lt hjs⟩
      have hdn : rankOf1 (gbDense env n) t.1 = none :=
        rankFrom_eq_none_of_not_mem hjd 1
      have hss : (rankOf1 (gbSparse env q n) t.1).isSome :=
        (rankFrom_isSome_iff_mem 1).2 hjs
      rcases hs : rankOf1 (gbSparse env q n) t.1 with _ | s
      · rw [hs] at hss
        simp at hss
      · rw [htag, rrfTagSpec, hdn, hs]
  · rw [if_neg hb] at ht
    by_cases hd : ¬ (gbDense env n).isEmpty = true
    · rw [if_pos hd] at ht
      rcases List.mem_map.1 ht with ⟨p, hp, rfl⟩
      left
      exact ⟨Or.inl rfl, gbDense_fst_lt (List.mem_map.2 ⟨p, hp, rfl⟩)⟩
    · rw [if_neg hd] at ht
      by_cases hs : ¬ (gbSparse env q n).isEmpty = true
      · rw [if_pos hs] at ht
        rcases List.mem_map.1 ht with ⟨p, hp, rfl⟩
        right
        exact ⟨rfl, gbSparse_fst_lt (List.mem_map.2 ⟨p, hp, rfl⟩)⟩
      · rw [if_neg hs] at ht
        simp at ht

/-- Assembly keeps the contiguous enumeration ranks when every fused
triple resolves to a row with nonempty text and metadata. -/
theorem assembleGeneral_rank_contig (dres : DenseRes) (sdocs : List String)
    (smeta : List Metadata) (fused : List (ℕ × ℚ × String))
    (hdl : dres.metadatas.length = dres.documents.length)
    (htD : ∀ s ∈ dres.documents, s ≠ "")
    (hmD : ∀ m ∈ dres.metadatas, m ≠ [])
    (htS : ∀ s ∈ sdocs, s ≠ "")
    (hmS : ∀ m ∈ smeta, m ≠ [])
    (hlenS : sdocs.length ≤ smeta.length)
    (hok : ∀ t ∈ fused,
      ((t.2.2 = "dense" ∨ t.2.2 = "hybrid") ∧ t.1 < dres.documents.length) ∨
        (t.2.2 = "sparse" ∧ t.1 < sdocs.length)) :
    (assembleGeneral dres sdocs smeta fused).map (fun r => r.rank) =
      List.range' 1 (assembleGeneral dres sdocs smeta fused).length := by
  rw [assembleGeneral, enum_eq_enumFrom]
  refine foldl_append_rank_range _ fused 0 [] ?_ rfl rfl
  intro acc p hp
  have hmem : p.2 ∈ fused := (mem_enumFrom hp).1
  obtain ⟨i, ridx, score, source⟩ := p
  rcases hok _ hmem with ⟨hsrc, hlt⟩ | ⟨hsrc, hlt⟩
  · have ht : dres.documents.getD ridx "" ≠ "" := by
      rw [List.getD_eq_getElem _ _ hlt]
      exact htD _ (List.getElem_mem _)
    have hm : dres.metadatas.getD ridx [] ≠ [] := by
      have hlt' : ridx < dres.metadatas.length := by
        rw [hdl]
        exact hlt
      rw [List.getD_eq_getElem _ _ hlt']
      exact hmD _ (List.getElem_mem _)
    exact ⟨_, rfl,
      assembleStep_denseHit dres sdocs smeta acc i ridx score source hsrc hlt ht hm⟩
  · have ht : sdocs.getD ridx "" ≠ "" := by
      rw [List.getD_eq_getElem _ _ hlt]
      exact htS _ (List.getElem_mem _)
    have hm : smeta.getD ridx [] ≠ [] := by
      have hlt' : ridx < smeta.length := lt_of_lt_of_le hlt hlenS
      rw [List.getD_eq_getElem _ _ hlt']
      exact hmS _ (List.getElem_mem _)
    subst hsrc
    exact ⟨_, rfl, assembleStep_sparseHit dres sdocs smeta acc i ridx score hlt ht hm⟩

theorem generalBranch_rank_contig (env : REnv) (q : String) (n : ℕ)
    (hdoc : ∀ d ∈ env.docs, d.text ≠ "" ∧ d.metadata ≠ [])
    (hsd : ∀ s ∈ env.sparseDocs, s ≠ "")
    (hlenS : env.sparseDocs.length ≤ env.sparseMeta.length)
    (hsm : ∀ m ∈ env.sparseMeta, m ≠ []) :
    (generalBranch env q n).map (fun r => r.rank) =
      List.range' 1 (generalBranch env q n).length := by
  rw [generalBranch]
  by_cases hfe : (gbFused env q n).isEmpty = true
  · rw [if_pos hfe]
    rfl
  · rw [if_neg hfe]
    refine assembleGeneral_rank_contig _ _ _ _
      (((vsQuery_fields_length env (n * 2) none).2.1).trans
        ((vsQuery_fields_length env (n * 2) none).1).symm)
      ?_ ?_ hsd hsm hlenS ?_
    · intro s hs
      obtain ⟨d, hd, rfl⟩ := mem_documents_vsQuery hs
      exact (hdoc d hd).1
    · intro m hm
      obtain ⟨d, hd, rfl⟩ := mem_metadatas_vsQuery hm
      exact (hdoc d hd).2
    · intro t ht
      exact gbFused_src_bounds (List.mem_of_mem_take ht)


/-- **C8.**  Amended rank-contiguity claim: the section-heading and image
branches always emit 1-indexed, gap-free ranks, and the general hybrid
branch emits the positions of the truncated fused list — which are
1-indexed and contiguous whenever every stored segment carries nonempty
text and nonempty metadata and the sparse metadata list is at least as
long as the sparse document list (the invariant `add_documents`
maintains); an escaped error yields the empty response, trivially
contiguous.  Without the nonempty-text/metadata hypotheses the general
branch can skip a fused candidate and leave a gap. -/
theorem retrieve_ranks_contiguous (env : REnv) (q : String) (n : ℕ)
    (oq : Option String)
    (hdoc : ∀ d ∈ env.docs, d.text ≠ "" ∧ d.metadata ≠ [])
    (hsd : ∀ s ∈ env.sparseDocs, s ≠ "")
    (hlen : env.sparseMeta.length = env.sparseDocs.length)
    (hsm : ∀ m ∈ env.sparseMeta, m ≠ []) :
    (retrieveM env q n oq).map (fun r => r.rank) =
      List.range' 1 (retrieveM env q n oq).length := by
  rw [retrieveM, retrieveE]
  by_cases hsq : isSectionHeadingQueryM (oq.getD q) = true
  · rw [if_pos hsq]
    by_cases hshort : (buildSectionHeadings env.docs).length < n
    · rw [if_pos hshort]
      cases hemb : embedQueryE env with
      | error e => rfl
      | ok u =>
        simp only []
        exact rank_contig_take _ n (sectionBackfill_rank_contig _ _
          (buildSectionHeadings_rank_contig env.docs))
    · rw [if_neg hshort]
      exact rank_contig_take _ n (buildSectionHeadings_rank_contig env.docs)
  · rw [if_neg hsq]
    by_cases himg : isImageQueryM (oq.getD q) = true
    · rw [if_pos himg]
      cases hemb : embedQueryE env with
      | error e => rfl
      | ok u =>
        simp only []
        exact imageBackfill_rank_contig _ _ _ (imageStage_rank_contig _ _)
    · rw [if_neg himg]
      cases hemb : embedQueryE env with
      | error e => rfl
      | ok u =>
        simp only []
        exact generalBranch_rank_contig env q n hdoc hsd (le_of_eq hlen.symm) hsm

/-- A corpus whose middle segment has empty text: the general branch skips
it during assembly but keeps counting fused positions. -/
def gapEnv : REnv :=
  { docs := [⟨"a", "alpha", [("content_type", MVal.s "text_chunk")]⟩,
             ⟨"b", "", [("content_type", MVal.s "text_chunk")]⟩,
             ⟨"c", "gamma", [("content_type", MVal.s "text_chunk")]⟩],
    dist := fun i => if i = 0 then 1/10 else if i = 1 then 2/10 else 3/10,
    embedFail := false, denseFail := false, sparseFail := false,
    sparseDocs := [], sparseMeta := [], idf := fun _ => 1, alpha := 1/2 }


section ConcreteEvaluation

attribute [local semireducible] Rat.add Rat.mul Rat.inv Rat.sub

/-- **C2.**  The general hybrid branch correlates dense and sparse
candidates by positional index, not by segment id: at `dupIdEnv` with the
general query `alpha` and `n = 3`, the dense path emits segment `a` from
dense position 0 while the sparse path emits the same segment `a` again
from sparse position 2, so one response carries the id `a` twice — the
invariant claimed in the spec (and whose violation its design notes flag as
a latent correctness issue of this implementation) fails on this code. -/
theorem retrieve_emits_duplicate_segment_id :
    (retrieveM dupIdEnv "alpha" 3).map (fun r => r.id) =
      [MVal.s "a", MVal.s "b", MVal.s "a"] ∧
    ¬ ((retrieveM dupIdEnv "alpha" 3).map (fun r => r.id)).Nodup := by
  constructor
  · decide
  · decide

/-- **C5 (counterexample).**  On an index holding `apple banana` and
`cherry`, querying `apple` returns the segment `cherry` with BM25 score 0
(score ≤ 0 is *not* excluded), and the query `""`, whose token set is
empty, returns every document at score 0 instead of an empty list. -/
theorem sparse_query_keeps_nonpositive_scores :
    (1, (0 : ℚ)) ∈ sparseQuery ⟨["apple banana", "cherry"], [[], []]⟩ (fun _ => 1) "apple" 10 ∧
    tokenizeQuery "" = [] ∧
    sparseQuery ⟨["apple banana", "cherry"], [[], []]⟩ (fun _ => 1) "" 10 =
      [(0, 0), (1, 0)] := by
  refine ⟨?_, ?_, ?_⟩
  · decide
  · decide
  · decide

/-- **C7 (counterexample).**  `enhance_query("what is the purpose?")`
appends `purpose` even though `purpose` occurs verbatim in the original
query: the question-type term family is added without the dedup check, so
the claim that every appended term is absent from the original query is
false. -/
theorem enhance_appends_term_already_in_query :
    enhanceQueryM "what is the purpose?" =
      "what is the purpose? definition function meaning purpose" ∧
    "purpose" ∈ sortedEnhanceTerms "what is the purpose?"
      (analyzeQueryM "what is the purpose?") ∧
    strIn "purpose" (pyLower "what is the purpose?") = true := by
  refine ⟨?_, ?_, ?_⟩ <;> decide

theorem retrieve_embed_error_yields_empty_witness :
    retrieveM { dupIdEnv with embedFail := true } "alpha" 3 none = [] :=
  retrieve_embed_error_yields_empty { dupIdEnv with embedFail := true }
    "alpha" 3 none (by decide) (by decide)

/-- **C10 (counterexample).**  An internal error in the dense store query
(or the sparse scoring) does not yield an empty result list: with the dense
store failing, `retrieve` returns the sparse path's three results; with the
sparse index failing, it returns the dense path's results. -/
theorem path_failure_degrades_instead_of_emptying :
    retrieveM { dupIdEnv with denseFail := true } "alpha" 3 ≠ [] ∧
    (retrieveM { dupIdEnv with denseFail := true } "alpha" 3).map
      (fun r => r.source) = [some "sparse", some "sparse", some "sparse"] ∧
    retrieveM { dupIdEnv with sparseFail := true } "alpha" 3 ≠ [] := by
  refine ⟨?_, ?_, ?_⟩ <;> decide

theorem section_branch_headings_first_witness :
    (buildSectionHeadings sectionShortEnv.docs =
      (enumFrom 0 (sectionShortEnv.docs.filter (fun d => isHeadingMd d.metadata))).map
        (fun p => ⟨MVal.s p.2.id, p.2.text, 1, p.1 + 1, p.2.metadata, none⟩)) ∧
    (retrieveM sectionShortEnv "list the sections" 2 none).length ≤ 2 ∧
    (retrieveM sectionShortEnv "list the sections" 2 none).take
      (min (buildSectionHeadings sectionShortEnv.docs).length 2) =
      (buildSectionHeadings sectionShortEnv.docs).take 2 ∧
    (∀ r ∈ (retrieveM sectionShortEnv "list the sections" 2 none).drop
        (buildSectionHeadings sectionShortEnv.docs).length,
      isHeadingMd r.metadata = false) ∧
    ((buildSectionHeadings sectionShortEnv.docs).length ≤ 2 →
      (buildSectionHeadings sectionShortEnv.docs).length ≤
        (retrieveM sectionShortEnv "list the sections" 2 none).length) :=
  section_branch_headings_first sectionShortEnv "list the sections" 2 none
    (by decide) (by decide)

/-- **C3 (counterexample).**  At `sectionShortEnv` (one heading, two
non-heading segments, the heading nearest by distance) the section query
`list the sections` with `n = 2` returns a single result: the backfill asks
the dense store for exactly `n − H = 1` candidate, receives the heading
itself, skips it, and stops — fewer than `n` results even though two
non-heading segments remain in the corpus.  The claim's "until n results
are reached or the corpus is exhausted" is false. -/
theorem section_backfill_stops_short :
    isSectionHeadingQueryM "list the sections" = true ∧
    (retrieveM sectionShortEnv "list the sections" 2 none).length = 1 ∧
    (sectionShortEnv.docs.filter (fun d => isHeadingMd d.metadata = false)).length = 2 := by
  refine ⟨?_, ?_, ?_⟩ <;> decide

/-- **C6 (counterexample).**  The query `show me the image about what
topics are covered` matches a negative-guard pattern
(`\bwhat.*topics.*covered`) and also the explicit visual phrase
`show me the image`; the classifier classifies it as visual, so the guard
does not force a non-visual classification over an earlier rule. -/
theorem guard_does_not_override_earlier_rules :
    guardPatternHit (pyLower "show me the image about what topics are covered") = true ∧
    explicitPhraseHit (pyLower "show me the image about what topics are covered") = true ∧
    isImageQueryM "show me the image about what topics are covered" = true := by
  refine ⟨?_, ?_, ?_⟩ <;> decide

/-- **C9 (counterexample).**  The tokenizer does not split on
non-alphanumeric boundaries: `floor-plan` stays one token, while the
spec-described tokenizer yields `floor`, `plan`. -/
theorem tokenizer_does_not_split_on_nonalphanumeric :
    tokenizeAdd "floor-plan" = ["floor-plan"] ∧
    specTokenize "floor-plan" = ["floor", "plan"] ∧
    tokenizeAdd "floor-plan" ≠ specTokenize "floor-plan" := by
  refine ⟨?_, ?_, ?_⟩ <;> decide

theorem image_branch_floor_half_and_dense_only_witness :
    (3 / 2 ≤ (retrieveM imageFloorEnv "show me the drawings" 3 none).length ∧
      ∀ r ∈ (retrieveM imageFloorEnv "show me the drawings" 3 none).take (3 / 2),
        imageWhere r.metadata = true) ∧
    (retrieveM imageFloorEnv "show me the drawings" 3 none).length ≤ 3 ∧
    (∀ (sd : List String) (sm : List Metadata) (idf2 : String → ℚ) (sf : Bool),
      retrieveM { imageFloorEnv with
          sparseDocs := sd
          sparseMeta := sm
          idf := idf2
          sparseFail := sf } "show me the drawings" 3 none =
        retrieveM imageFloorEnv "show me the drawings" 3 none) :=
  image_branch_floor_half_and_dense_only imageFloorEnv "show me the drawings" 3 none
    (by decide) (by decide) (by decide) (by decide) (by decide)

/-- **C4 (counterexample).**  With `n = 3` the claim's bound is
`⌈3/2⌉ = 2`, and `imageFloorEnv` holds two image segments; but the code
reserves only `3 // 2 = 1` slot for the restricted retrieval, and the
second response slot is filled by the nearer *text* segment `t2`, so not
every item in the first `⌈n/2⌉` slots satisfies the image predicate. -/
theorem image_branch_uses_floor_not_ceil :
    isImageQueryM "show me the drawings" = true ∧
    2 ≤ (imageFloorEnv.docs.filter (fun d => imageWhere d.metadata)).length ∧
    (retrieveM imageFloorEnv "show me the drawings" 3 none).map
      (fun r => (r.id, imageWhere r.metadata)) =
      [(MVal.s "i0", true), (MVal.s "t2", false)] := by
  refine ⟨?_, ?_, ?_⟩ <;> decide

/-- **C8 witness.**  At `dupIdEnv` (all texts and metadata nonempty, sparse
lists parallel) the three results of the general branch carry ranks
`[1, 2, 3]`. -/
theorem retrieve_ranks_contiguous_witness :
    (∀ d ∈ dupIdEnv.docs, d.text ≠ "" ∧ d.metadata ≠ []) ∧
    (retrieveM dupIdEnv "alpha" 3 none).map (fun r => r.rank) =
      List.range' 1 (retrieveM dupIdEnv "alpha" 3 none).length :=
  ⟨by decide, retrieve_ranks_contiguous dupIdEnv "alpha" 3 none (by decide)
    (by decide) (by decide) (by decide)⟩

/-- **C8 counterexample.**  At `gapEnv` the second stored segment has empty
text; the general branch resolves fused position 1 to it and drops it, so
the two returned results carry ranks `[1, 3]` — 1-indexed but not
contiguous. -/
theorem retrieve_ranks_gap_on_empty_text :
    (retrieveM gapEnv "alpha" 3 none).map (fun r => r.rank) = [1, 3] ∧
    (retrieveM gapEnv "alpha" 3 none).length = 2 := by
  constructor <;> decide


end ConcreteEvaluation
